import Mathlib

/-!
Verification of the HiGHS dual ratio test (src/simplex/HDualRow.cpp) and the
cut-pool aging state machine (src/mip/HighsCutPool.h) against their
natural-language specification.

Modelling conventions (shallow embedding):
* C++ `double` values are modelled as exact rationals (`ℚ`); the development
  reasons about the ideal real-number semantics of the formulas in the code.
* `HIGHS_CONST_INF` (the solver's representation of +infinity) is modelled as
  `none` in `Option ℚ`, i.e. a genuine infinity: every comparison of the form
  `inf * alpha > x` or `x <= inf * alpha` with `alpha > 0` is true, and
  `inf < 1e18` is false.  All quantities that can hold `HIGHS_CONST_INF`
  (`workTheta`, `selectTheta` in the two BFRT loops) use `Option ℚ`.
* Machine integers (`int`, `int16_t`) are modelled as `ℤ` (column indices,
  cut ages); sizes/counts are `ℕ`.  The arrays of the surrounding solver state
  (`workDual`, `workMove`, `workRange`, `workValue`, `nonbasicFlag_`,
  `devex_index_`, `numTotPermutation_`) are modelled as total functions from
  column index to value, collected in `DualRowCtx`.
* The packed row (`packIndex`/`packValue`, length `packCount`) is a list of
  (column, value) pairs; `workData` is a list of (column, alpha) pairs.
* The in-place `swap(workData[workCount++], workData[i])` partition used by
  the two BFRT admission loops is modelled on lists: admitting the element
  currently scanned appends it to the admitted block and rotates the block of
  already-rejected elements left by one (the element swapped out of the front
  of the rejected block lands at the scanned position, i.e. at the back of the
  rejected block).  Rejecting an element appends it to the rejected block.
  This reproduces the exact final array layout of the C++ code.
* `for (;;)`-style loops whose termination is not structural are modelled with
  an explicit fuel parameter and return `Option`; `none` means the fuel was
  exhausted, i.e. the C++ loop would still be running after that many passes.
* An out-of-bounds array read (`workData[-1]`, which the C++ can perform when
  `chooseFinalLargeAlpha` finds no acceptable group) has no defined behaviour;
  `chooseFinal` is modelled to return `none` on that path.
-/

/-- The per-call context of `HDualRow`: the borrowed solver arrays and scalar
parameters.  `workMove` is `nonbasicMove_` (values -1, 0, 1), `Td` the dual
feasibility tolerance, `updateCount` is `simplex_info_.update_count`,
`workDelta` the required total step, `costScale` is `scale_.cost_`,
`nonbasicFlag` is `nonbasicFlag_` (1 nonbasic, 0 basic), `perm` is
`numTotPermutation_`. -/
structure DualRowCtx where
  workMove : ℤ → ℚ
  workDual : ℤ → ℚ
  workRange : ℤ → ℚ
  workValue : ℤ → ℚ
  nonbasicFlag : ℤ → ℚ
  devexIndex : ℤ → ℚ
  perm : ℤ → ℕ
  Td : ℚ
  workDelta : ℚ
  costScale : ℚ
  updateCount : ℕ

/-- `const int sourceOut = workDelta < 0 ? -1 : 1;` (as a rational factor). -/
def sourceOut (workDelta : ℚ) : ℚ := if workDelta < 0 then -1 else 1

/-- The degeneracy-adaptive pivot tolerance of `choosePossible` and
`createFreemove`: `update_count < 10 ? 1e-9 : update_count < 20 ? 3e-8 : 1e-6`. -/
def pivotTolTa (updateCount : ℕ) : ℚ :=
  if updateCount < 10 then 1 / 10 ^ 9
  else if updateCount < 20 then 3 / 10 ^ 8
  else 1 / 10 ^ 6

/-- The signed scaled pivot magnitude of a packed entry:
`packValue[i] * sourceOut * move` in `HDualRow::choosePossible`. -/
def cpAlpha (ctx : DualRowCtx) (e : ℤ × ℚ) : ℚ :=
  e.2 * sourceOut ctx.workDelta * ctx.workMove e.1

/-- One iteration of the loop of `HDualRow::choosePossible`: if
`alpha > Ta`, append `(iCol, alpha)` to `workData` and update the running
`workTheta` with `relax / alpha` whenever `workTheta * alpha > relax`,
where `relax = workDual[iCol] * move + Td`.  `workTheta` is `none` when it
still holds `HIGHS_CONST_INF`. -/
def cpStep (ctx : DualRowCtx) (st : List (ℤ × ℚ) × Option ℚ) (e : ℤ × ℚ) :
    List (ℤ × ℚ) × Option ℚ :=
  let alpha := cpAlpha ctx e
  if pivotTolTa ctx.updateCount < alpha then
    let relax := ctx.workDual e.1 * ctx.workMove e.1 + ctx.Td
    (st.1 ++ [(e.1, alpha)],
      match st.2 with
      | none => some (relax / alpha)
      | some t => if relax < t * alpha then some (relax / alpha) else some t)
  else st

/-- `HDualRow::choosePossible` on the packed row: produces the candidate list
`workData` and the step bound `workTheta` (starting from `HIGHS_CONST_INF`,
modelled as `none`). -/
def choosePossible (ctx : DualRowCtx) (pack : List (ℤ × ℚ)) :
    List (ℤ × ℚ) × Option ℚ :=
  pack.foldl (cpStep ctx) ([], none)

/-- The candidate list produced by `choosePossible`, described directly:
the packed entries whose signed scaled magnitude exceeds the tolerance,
paired with that magnitude. -/
def cpIncluded (ctx : DualRowCtx) (pack : List (ℤ × ℚ)) : List (ℤ × ℚ) :=
  pack.filterMap (fun e =>
    if pivotTolTa ctx.updateCount < cpAlpha ctx e then some (e.1, cpAlpha ctx e)
    else none)

/-- The breakpoint ratio of a candidate `(iCol, alpha)`:
`(workDual[iCol] * move + Td) / alpha`. -/
def breakRatio (ctx : DualRowCtx) (p : ℤ × ℚ) : ℚ :=
  (ctx.workDual p.1 * ctx.workMove p.1 + ctx.Td) / p.2

/-- One step of a running minimum over `Option ℚ` (with `none` as
plus-infinity). -/
def minStepQ (acc : Option ℚ) (r : ℚ) : Option ℚ :=
  match acc with
  | none => some r
  | some t => if r < t then some r else some t

/-- Running minimum of a list of rationals, seeded with `acc`
(`none` = plus-infinity). -/
def listMinQ (acc : Option ℚ) : List ℚ → Option ℚ
  | [] => acc
  | r :: rest => listMinQ (minStepQ acc r) rest

/-- One iteration of the loop of `HDualRow::updateDual`: subtract
`theta * packValue[i]` from `workDual[packIndex[i]]` and accumulate the dual
objective change `nonbasicFlag * (-workValue * (theta * packValue)) *
costScale`. -/
def updateDualStep (ctx : DualRowCtx) (theta : ℚ) (st : (ℤ → ℚ) × ℚ)
    (e : ℤ × ℚ) : (ℤ → ℚ) × ℚ :=
  let newDual : ℤ → ℚ := fun j => if j = e.1 then st.1 e.1 - theta * e.2 else st.1 j
  let deltaDual := theta * e.2
  let change := ctx.nonbasicFlag e.1 * (-(ctx.workValue e.1) * deltaDual) * ctx.costScale
  (newDual, st.2 + change)

/-- `HDualRow::updateDual(theta)`: returns the updated dual-value array and
the accumulated dual objective change. -/
def updateDual (ctx : DualRowCtx) (pack : List (ℤ × ℚ)) (theta : ℚ) :
    (ℤ → ℚ) × ℚ :=
  pack.foldl (updateDualStep ctx theta) (ctx.workDual, 0)

/-- The total packed value carried by column `j` in the packed row
(accumulating over repeated occurrences of `j`). -/
def occSum (pack : List (ℤ × ℚ)) (j : ℤ) : ℚ :=
  ((pack.filter (fun e => e.1 = j)).map Prod.snd).sum

/-- `HDualRow::computeDevexWeight`: sum of `pv * pv` with
`pv = devex_index[iCol] * packValue[i]` over the packed entries, skipping
entries whose column is basic (`nonbasicFlag == 0`), exactly as the
`if (!nonbasicFlag) continue;` in the source.  The function is pure in the
model; the source only writes the member `computed_edge_weight`. -/
def computeDevexWeight (ctx : DualRowCtx) (pack : List (ℤ × ℚ)) : ℚ :=
  pack.foldl (fun acc e =>
    if ctx.nonbasicFlag e.1 = 0 then acc
    else
      let pv := ctx.devexIndex e.1 * e.2
      if pv ≠ 0 then acc + pv * pv else acc) 0

/-- Modelled from the spec's words for comparison in claim C10: the sum of
squares of (devex reference weight × packed value) over every entry of the
packed row. -/
def devexWeightAllEntries (ctx : DualRowCtx) (pack : List (ℤ × ℚ)) : ℚ :=
  (pack.map (fun e => ctx.devexIndex e.1 * e.2 * (ctx.devexIndex e.1 * e.2))).sum

/-- A base context with all arrays zero, used to build concrete inputs in
witnesses. -/
def baseCtx : DualRowCtx where
  workMove := fun _ => 0
  workDual := fun _ => 0
  workRange := fun _ => 0
  workValue := fun _ => 0
  nonbasicFlag := fun _ => 0
  devexIndex := fun _ => 0
  perm := fun _ => 0
  Td := 0
  workDelta := 0
  costScale := 0
  updateCount := 0

/-- Concrete context for the C6 witness. -/
def ctxC6w : DualRowCtx :=
  { baseCtx with
    workMove := fun _ => 1
    workDual := fun _ => 2
    workDelta := 1
    Td := 1 / 10 ^ 7 }

/-- Concrete context for the C9 witness. -/
def ctxDual5 : DualRowCtx := { baseCtx with workDual := fun _ => 5 }

/-- Concrete context for the C10 counterexample. -/
def ctxDevex1 : DualRowCtx := { baseCtx with devexIndex := fun _ => 1 }

/-- Left rotation of a list by one position.  This is the effect of
`swap(workData[workCount++], workData[i])` on the block of already-rejected
elements sitting between the admitted block and the scan position: the
element swapped out of the front of that block lands at the scanned
position, i.e. at the back of the block. -/
def rotl {α : Type} : List α → List α
  | [] => []
  | h :: t => t ++ [h]

/-- State of the loop of `HDualRow::chooseFinalWorkGroupQuad`.  `admitted`
is `workData[0..workCount)`, `pending` the rest of the candidate block,
`groups` is `workGroup`, and `prevW`, `prevRemain`, `prevSelect` are the
recorded values used by the stagnation check. -/
structure QuadSt where
  admitted : List (ℤ × ℚ)
  pending : List (ℤ × ℚ)
  totalChange : ℚ
  selectTheta : Option ℚ
  groups : List ℕ
  prevW : ℕ
  prevRemain : ℚ
  prevSelect : Option ℚ
deriving DecidableEq

/-- `iz_remainTheta = 1e100`. -/
def quadIzRemain : ℚ := 10 ^ 100

/-- The inner `for (int i = workCount; i < fullCount; i++)` scan of
`chooseFinalWorkGroupQuad`: admit the scanned element when
`dual <= selectTheta * value` (appending it to the admitted block, rotating
the rejected block, and accumulating `value * workRange`), otherwise lower
`remainTheta` to `(dual + Td) / value` when `dual + Td < remainTheta * value`.
Returns (admitted, rejected, totalChange, remainTheta). -/
def quadPassAux (ctx : DualRowCtx) (selT : ℚ) :
    List (ℤ × ℚ) → List (ℤ × ℚ) → List (ℤ × ℚ) → ℚ → ℚ →
      List (ℤ × ℚ) × List (ℤ × ℚ) × ℚ × ℚ
  | [], adm, rej, tc, rem => (adm, rej, tc, rem)
  | e :: rest, adm, rej, tc, rem =>
    let dual := ctx.workMove e.1 * ctx.workDual e.1
    if dual ≤ selT * e.2 then
      quadPassAux ctx selT rest (adm ++ [e]) (rotl rej)
        (tc + e.2 * ctx.workRange e.1) rem
    else if dual + ctx.Td < rem * e.2 then
      quadPassAux ctx selT rest adm (rej ++ [e]) tc ((dual + ctx.Td) / e.2)
    else
      quadPassAux ctx selT rest adm (rej ++ [e]) tc rem

/-- The `remainTheta` a pass computes when it admits nothing: it depends only
on the scanned elements, not on `selectTheta`. -/
def remainPure (ctx : DualRowCtx) : List (ℤ × ℚ) → ℚ → ℚ
  | [], rem => rem
  | e :: rest, rem =>
    let dual := ctx.workMove e.1 * ctx.workDual e.1
    if dual + ctx.Td < rem * e.2 then remainPure ctx rest ((dual + ctx.Td) / e.2)
    else remainPure ctx rest rem

/-- One iteration of the `while (selectTheta < 1e18)` loop of
`chooseFinalWorkGroupQuad`: `Sum.inl (ok, st)` is an immediate return with
result `ok` (`false` exactly on the stagnation check), `Sum.inr st` continues
the loop.  The `none` branch models `HIGHS_CONST_INF < 1e18` being false. -/
def quadStep (ctx : DualRowCtx) (totalDelta : ℚ) (fullCount : ℕ)
    (st : QuadSt) : (Bool × QuadSt) ⊕ QuadSt :=
  match st.selectTheta with
  | none => Sum.inl (true, st)
  | some t =>
    if t < 10 ^ 18 then
      let r := quadPassAux ctx t st.pending st.admitted [] st.totalChange quadIzRemain
      let adm := r.1
      let rem := r.2.2.2
      let st1 : QuadSt :=
        { admitted := adm, pending := r.2.1, totalChange := r.2.2.1,
          selectTheta := some rem, groups := st.groups ++ [adm.length],
          prevW := st.prevW, prevRemain := st.prevRemain,
          prevSelect := st.prevSelect }
      if adm.length = st.prevW ∧ st.prevSelect = some rem ∧ st.prevRemain = rem then
        Sum.inl (false, st1)
      else
        let st2 : QuadSt :=
          { st1 with prevW := adm.length, prevRemain := rem, prevSelect := some rem }
        if totalDelta ≤ st2.totalChange ∨ adm.length = fullCount then
          Sum.inl (true, st2)
        else Sum.inr st2
    else Sum.inl (true, st)

/-- The `while` loop of `chooseFinalWorkGroupQuad`, with fuel; `none` means
the loop is still running after `fuel` passes. -/
def quadLoop (ctx : DualRowCtx) (totalDelta : ℚ) (fullCount : ℕ) :
    ℕ → QuadSt → Option (Bool × QuadSt)
  | 0, _ => none
  | fuel + 1, st =>
    match quadStep ctx totalDelta fullCount st with
    | Sum.inl r => some r
    | Sum.inr st2 => quadLoop ctx totalDelta fullCount fuel st2

/-- `HDualRow::chooseFinalWorkGroupQuad` on candidate block `input` (the
`workData[0..workCount)` left by the coarse BFRT step), starting `selectTheta`
at `workTheta` and `totalChange` at `1e-12`, with `totalDelta =
fabs(workDelta)`.  The returned `Bool` is the C++ return value (`false` =
stagnation failure). -/
def chooseFinalWorkGroupQuad (ctx : DualRowCtx) (workTheta : Option ℚ)
    (input : List (ℤ × ℚ)) (fuel : ℕ) : Option (Bool × QuadSt) :=
  quadLoop ctx |ctx.workDelta| input.length fuel
    { admitted := [], pending := input, totalChange := 1 / 10 ^ 12,
      selectTheta := workTheta, groups := [0], prevW := 0,
      prevRemain := quadIzRemain, prevSelect := workTheta }

/-- Concrete context for the C2 witness (a negative tolerance makes the
stagnation check reachable). -/
def ctxC2w : DualRowCtx :=
  { baseCtx with
    workMove := fun _ => 1
    workDual := fun _ => 5
    Td := -1
    workDelta := 100 }

/-- The stagnant state reached by `chooseFinalWorkGroupQuad` on the C2
witness input after one pass. -/
def quadStagSt : QuadSt where
  admitted := []
  pending := [(0, 1)]
  totalChange := 1 / 10 ^ 12
  selectTheta := some 4
  groups := [0, 0]
  prevW := 0
  prevRemain := 4
  prevSelect := some 4

/-- Array access at a possibly negative index: `workData[i]` with the C++
out-of-bounds reads (`i = -1`, or `i` past the vector) modelled as the junk
entry `(0, 0)`.  Theorems about `chooseFinalLargeAlpha` carry hypotheses
(positive candidate values, in-range group offsets) under which the junk
entry is never selected, matching the paths the solver actually takes. -/
def getE (data : List (ℤ × ℚ)) (i : ℤ) : ℤ × ℚ :=
  if i < 0 then (0, 0) else data.getD i.toNat (0, 0)

/-- The packed value at index `i` of the candidate array. -/
def valAt (data : List (ℤ × ℚ)) (i : ℕ) : ℚ := (data.getD i (0, 0)).2

/-- The column at index `i` of the candidate array. -/
def colAt (data : List (ℤ × ℚ)) (i : ℕ) : ℤ := (data.getD i (0, 0)).1

/-- The slice `workData[lo..hi)` of the candidate array. -/
def segOf (data : List (ℤ × ℚ)) (lo hi : ℕ) : List (ℤ × ℚ) :=
  (data.drop lo).take (hi - lo)

/-- `for (int i = 0; i < workCount; i++) finalCompare = max(finalCompare,
workData[i].second);` of `chooseFinalLargeAlpha`. -/
def maxValLoop (data : List (ℤ × ℚ)) (wc : ℕ) : ℚ :=
  (List.range wc).foldl (fun m i => max m (data.getD i (0, 0)).2) 0

/-- The inner scan of one group of `chooseFinalLargeAlpha` over a list of
indices, carrying `(dMaxFinal, iMaxFinal)`: a strictly larger value replaces
the incumbent; an equal value replaces it only when its column's fixed
permutation index is smaller. -/
def scanGroupIdx (data : List (ℤ × ℚ)) (perm : ℤ → ℕ) :
    List ℕ → ℚ × ℤ → ℚ × ℤ
  | [], st => st
  | i :: rest, st =>
    let v := (data.getD i (0, 0)).2
    if st.1 < v then scanGroupIdx data perm rest (v, (i : ℤ))
    else if st.1 = v then
      let jCol := (getE data st.2).1
      let iCol := (data.getD i (0, 0)).1
      if perm iCol < perm jCol then scanGroupIdx data perm rest (st.1, (i : ℤ))
      else scanGroupIdx data perm rest st
    else scanGroupIdx data perm rest st

/-- The scan of group `[lo, hi)`, started from `dMaxFinal = 0`,
`iMaxFinal = -1`. -/
def scanGroup (data : List (ℤ × ℚ)) (perm : ℤ → ℕ) (lo hi : ℕ) : ℚ × ℤ :=
  scanGroupIdx data perm (List.range' lo (hi - lo)) (0, -1)

/-- The backward group loop `for (iGroup = countGroup - 1; iGroup >= 0;
iGroup--)` of `chooseFinalLargeAlpha`; the argument is the number of groups
still to scan (`iGroup + 1`), and the result is `(breakIndex, breakGroup)`,
`(-1, -1)` when no group qualifies. -/
def scanGroups (data : List (ℤ × ℚ)) (groups : List ℕ) (perm : ℤ → ℕ)
    (fc : ℚ) : ℕ → ℤ × ℤ
  | 0 => (-1, -1)
  | g + 1 =>
    let lo := groups.getD g 0
    let hi := groups.getD (g + 1) 0
    let m := scanGroup data perm lo hi
    if fc < (getE data m.2).2 then (m.2, (g : ℤ))
    else scanGroups data groups perm fc g

/-- `HDualRow::chooseFinalLargeAlpha` on candidate array `data` with group
offsets `groups` and admitted count `wc` (the member `workCount` used by the
`finalCompare` loop): `finalCompare = min(0.1 * max, 1.0)`, then scan groups
backward from the last. -/
def chooseFinalLargeAlpha (ctx : DualRowCtx) (data : List (ℤ × ℚ))
    (groups : List ℕ) (wc : ℕ) : ℤ × ℤ :=
  let fc := min (1 / 10 * maxValLoop data wc) 1
  scanGroups data groups ctx.perm fc (groups.length - 1)

/-- Invariant of the group scan: the carried `(dMaxFinal, iMaxFinal)` pair is
either the initial sentinel `(0, -1)` with every summarized value
nonpositive, or holds the maximal value among the summarized indices and an
index attaining it whose column has minimal permutation index among the
maximizers. -/
def ScanInv (data : List (ℤ × ℚ)) (perm : ℤ → ℕ) (S : List ℕ)
    (st : ℚ × ℤ) : Prop :=
  (st.1 = 0 ∧ st.2 = -1 ∧ ∀ i ∈ S, valAt data i ≤ 0)
  ∨ (0 < st.1 ∧ ∃ k ∈ S, st.2 = (k : ℤ) ∧ valAt data k = st.1
      ∧ (∀ i ∈ S, valAt data i ≤ st.1)
      ∧ (∀ i ∈ S, valAt data i = st.1 → perm (colAt data k) ≤ perm (colAt data i)))

/-- Concrete context for the C3 witness: an injective fixed permutation
mapping column 3 below column 7. -/
def ctxC3w : DualRowCtx :=
  { baseCtx with perm := fun c => (2 * c).natAbs + (if c < 0 then 1 else 0) }

/-- `alpha * selectTheta >= tight` of the coarse BFRT admission loop, with
`selectTheta` possibly `HIGHS_CONST_INF` (`none`): the infinite case is
modelled as true, which is the comparison's value for the positive alphas
the loop processes. -/
def infMulGe (s : Option ℚ) (alpha tight : ℚ) : Prop :=
  match s with
  | none => True
  | some t => tight ≤ alpha * t

instance (s : Option ℚ) (alpha tight : ℚ) : Decidable (infMulGe s alpha tight) :=
  match s with
  | none => isTrue trivial
  | some t => inferInstanceAs (Decidable (tight ≤ alpha * t))

/-- The inner scan of the coarse (large-step) BFRT reduction of
`chooseFinal` (step 1): admit the scanned candidate when
`alpha * selectTheta >= tight` with `tight = workMove * workDual`,
accumulating `workRange * alpha`, with the same swap-rotate partition as
the quad pass.  Returns (admitted, rejected, totalChange). -/
def coarsePassAux (ctx : DualRowCtx) (selT : Option ℚ) :
    List (ℤ × ℚ) → List (ℤ × ℚ) → List (ℤ × ℚ) → ℚ →
      List (ℤ × ℚ) × List (ℤ × ℚ) × ℚ
  | [], adm, rej, tc => (adm, rej, tc)
  | e :: rest, adm, rej, tc =>
    let tight := ctx.workMove e.1 * ctx.workDual e.1
    if infMulGe selT e.2 tight then
      coarsePassAux ctx selT rest (adm ++ [e]) (rotl rej)
        (tc + ctx.workRange e.1 * e.2)
    else coarsePassAux ctx selT rest adm (rej ++ [e]) tc

/-- The `for (;;)` loop of the coarse BFRT reduction: run a pass, multiply
`selectTheta` by 10, stop once the accumulated range covers the required
step or all candidates are admitted.  Fuel-bounded: `none` means the loop is
still running (which the C++ does forever on inputs whose `selectTheta`
stays nonpositive). -/
def coarseLoop (ctx : DualRowCtx) (totalDelta : ℚ) (fullCount : ℕ) :
    ℕ → List (ℤ × ℚ) → List (ℤ × ℚ) → ℚ → Option ℚ →
      Option (List (ℤ × ℚ) × List (ℤ × ℚ))
  | 0, _, _, _, _ => none
  | fuel + 1, adm, pend, tc, selT =>
    let r := coarsePassAux ctx selT pend adm [] tc
    let selT2 := selT.map (· * 10)
    if totalDelta ≤ r.2.2 ∨ r.1.length = fullCount then some (r.1, r.2.1)
    else coarseLoop ctx totalDelta fullCount fuel r.1 r.2.1 r.2.2 selT2

/-- The outputs of a successful `HDualRow::chooseFinal`: the entering
variable, its pivot value `workAlpha`, the dual step `workTheta`, and the
bound-flip list left in `workData[0..workCount)`. -/
structure CFRes where
  workPivot : ℤ
  workAlpha : ℚ
  workTheta : ℚ
  flips : List (ℤ × ℚ)
deriving DecidableEq

/-- The return of `chooseFinal`: `fail` is the C++ `return true` (ratio-test
failure signalled to the caller), `ok` the C++ `return false` with the
computed outputs. -/
inductive CFOut
  | fail : CFOut
  | ok : CFRes → CFOut
deriving DecidableEq

/-- Lexicographic comparison used by `std::sort` on `pair<int, double>`. -/
def pairLe (a b : ℤ × ℚ) : Prop := a.1 < b.1 ∨ (a.1 = b.1 ∧ a.2 ≤ b.2)

instance (a b : ℤ × ℚ) : Decidable (pairLe a b) :=
  inferInstanceAs (Decidable (_ ∨ _))

/-- Insertion into a sorted list under `pairLe`. -/
def insertSorted (a : ℤ × ℚ) : List (ℤ × ℚ) → List (ℤ × ℚ)
  | [] => [a]
  | b :: t => if pairLe a b then a :: b :: t else b :: insertSorted a t

/-- Sorting of the flip list (`std::sort` on pairs; the order is total, so
the sorted sequence is unique). -/
def sortPairs : List (ℤ × ℚ) → List (ℤ × ℚ)
  | [] => []
  | a :: t => insertSorted a (sortPairs t)

/-- `HDualRow::chooseFinal` on the candidate set left by `choosePossible`:
(1) coarse BFRT reduction, (2) exact grouping by
`chooseFinalWorkGroupQuad` — returning the failure signal (C++ `true`) when
the grouping detects stagnation — (3) `chooseFinalLargeAlpha`, (4) pivot,
step and flip-list computation.  The heap-based regrouping
(`chooseFinalWorkGroupHeap`) and its cross-check only feed `printf`
diagnostics and the `alt_*` members, never the returned outputs, and are not
modelled.  `none` models fuel exhaustion of the coarse loop or the undefined
`workData[-1]` read taken when no group qualifies. -/
def chooseFinal (ctx : DualRowCtx) (cfFuel qFuel : ℕ)
    (workData : List (ℤ × ℚ)) (workTheta : Option ℚ) : Option CFOut :=
  let totalDelta := |ctx.workDelta|
  let selT0 := workTheta.map (fun t => 10 * t + 1 / 10 ^ 7)
  match coarseLoop ctx totalDelta workData.length cfFuel [] workData 0 selT0 with
  | none => none
  | some (coarseAdm, coarseRest) =>
    match chooseFinalWorkGroupQuad ctx workTheta coarseAdm qFuel with
    | none => none
    | some (false, _) => some CFOut.fail
    | some (true, qst) =>
      let data := qst.admitted ++ qst.pending ++ coarseRest
      let wc := qst.admitted.length
      let bi := chooseFinalLargeAlpha ctx data qst.groups wc
      if bi.1 < 0 then none
      else
        let pivotEntry := getE data bi.1
        let workPivot := pivotEntry.1
        let workAlpha := pivotEntry.2 * sourceOut ctx.workDelta * ctx.workMove workPivot
        let workTheta2 :=
          if 0 < ctx.workDual workPivot * ctx.workMove workPivot then
            ctx.workDual workPivot / workAlpha
          else 0
        let flipPre := (data.take (qst.groups.getD bi.2.toNat 0)).map
          (fun e => (e.1, ctx.workMove e.1 * ctx.workRange e.1))
        let flips := if workTheta2 = 0 then [] else sortPairs flipPre
        some (CFOut.ok
          { workPivot := workPivot, workAlpha := workAlpha,
            workTheta := workTheta2, flips := flips })

/-- The ratio test as the claims exercise it: `choosePossible` followed by
`chooseFinal` on its candidate set and step bound. -/
def ratioTest (ctx : DualRowCtx) (cfFuel qFuel : ℕ)
    (pack : List (ℤ × ℚ)) : Option CFOut :=
  let cp := choosePossible ctx pack
  chooseFinal ctx cfFuel qFuel cp.1 cp.2

/-- Concrete context for the C1 counterexample (negative `workDelta`, so
`sourceOut = -1`). -/
def ctxC1ce : DualRowCtx :=
  { baseCtx with
    workMove := fun _ => 1
    workDual := fun _ => 1 / 2
    workRange := fun _ => 2
    Td := 1 / 10 ^ 7
    workDelta := -1 }

/-- Concrete context for the C1 witness. -/
def ctxC1w : DualRowCtx :=
  { baseCtx with
    workMove := fun _ => 1
    workDual := fun _ => 1 / 2
    workRange := fun _ => 2
    Td := 1 / 10 ^ 7
    workDelta := 1 }

/-- Concrete context for the C8 witness (the pivot's dual is already
feasible in its movement direction). -/
def ctxC8w : DualRowCtx :=
  { baseCtx with
    workMove := fun _ => 1
    workDual := fun _ => -1
    workRange := fun _ => 2
    Td := 1
    workDelta := 1 }

/- ----------------------------------------------------------------- -/
/- HighsCutPool aging (src/mip/HighsCutPool.h).                       -/
/- Ages are `int16_t` in the source; they are modelled as `ℤ` (the    -/
/- claims only exercise small magnitudes).                            -/
/- ----------------------------------------------------------------- -/

/-- `HighsCutPool::resetAge`: `if (ages_[cut] < 0) ages_[cut] = -1; else
ages_[cut] = 0;` as a function of the cut's age. -/
def resetAge (age : ℤ) : ℤ := if age < 0 then -1 else 0

/-- `HighsCutPool::ageLpCut`: `--ages_[cut]; if (ages_[cut] < -agelimit)
{ ages_[cut] = 0; return true; } return false;` as a function of the cut's
age, returning the new age and the eviction-eligibility flag.  The source
also has `assert(ages_[cut] < 0)`, which is compiled out in release builds;
the model gives the release (executed) semantics. -/
def ageLpCut (age agelimit : ℤ) : ℤ × Bool :=
  let a := age - 1
  if a < -agelimit then (0, true) else (a, false)

/-- Repeated calls of `ageLpCut` on one cut: returns the final age and the
list of returned flags, one per call, in call order. -/
def ageLpCutIter : ℕ → ℤ → ℤ → ℤ × List Bool
  | 0, age, _ => (age, [])
  | n + 1, age, agelimit =>
    let r := ageLpCut age agelimit
    let rest := ageLpCutIter n r.1 agelimit
    (rest.1, r.2 :: rest.2)

/-- Claim C4: with age limit 5, after `resetAge` on a previously inactive cut
(age `>= 0`), six successive calls of `ageLpCut(cut, 5)` return `false` on
calls 1-5 and `true` for the first time on exactly call 6, and that call
resets the age to 0, so eligibility is reported exactly once. -/
theorem c4_aging_round_trip (a : ℤ) (h : 0 ≤ a) :
    ageLpCutIter 6 (resetAge a) 5 =
      (0, [false, false, false, false, false, true]) := by
  have hra : resetAge a = 0 := by
    unfold resetAge
    rw [if_neg (by omega)]
  rw [hra]
  decide

/-- Witness for C4 at the concrete previously-inactive age 3. -/
theorem c4_aging_round_trip_witness :
    (0 : ℤ) ≤ 3 ∧
      ageLpCutIter 6 (resetAge 3) 5 =
        (0, [false, false, false, false, false, true]) :=
  ⟨by decide, c4_aging_round_trip 3 (by decide)⟩

/-- Claim C5 counterexample: the claim says `resetAge` sets the age to `-1`
when the cut was not previously active; but a cut with (inactive) age 2 gets
age 0, not -1.  The code maps active (negative) ages to -1 and inactive
(nonnegative) ages to 0 — the opposite of the claim's reading. -/
theorem c5_resetAge_counterexample : resetAge 2 = 0 ∧ resetAge 2 ≠ -1 := by
  decide

/-- Claim C5 (amended): `resetAge` sets a cut's age to -1 when the cut is
currently tracked as active (negative age) and to 0 when it is inactive
(nonnegative age). -/
theorem c5_resetAge_amended (a : ℤ) :
    (a < 0 → resetAge a = -1) ∧ (0 ≤ a → resetAge a = 0) := by
  unfold resetAge
  constructor
  · intro h
    rw [if_pos h]
  · intro h
    rw [if_neg (by omega)]

/-- Witness for C5 (amended) at ages -4 and 3. -/
theorem c5_resetAge_amended_witness :
    ((-4 : ℤ) < 0 ∧ resetAge (-4) = -1) ∧ ((0 : ℤ) ≤ 3 ∧ resetAge 3 = 0) :=
  ⟨⟨by decide, (c5_resetAge_amended (-4)).1 (by decide)⟩,
   ⟨by decide, (c5_resetAge_amended 3).2 (by decide)⟩⟩

/-- The pivot tolerance is positive in all three tiers. -/
lemma pivotTolTa_pos (uc : ℕ) : 0 < pivotTolTa uc := by
  unfold pivotTolTa
  split_ifs <;> norm_num

/-- Characterization of the fold of `choosePossible`: the candidate list is
the filtered-and-mapped packed row appended to the accumulator, and the step
bound is the running minimum of the candidates' breakpoint ratios. -/
lemma choosePossible_fold (ctx : DualRowCtx) (pack : List (ℤ × ℚ)) :
    ∀ (A : List (ℤ × ℚ)) (th : Option ℚ),
    pack.foldl (cpStep ctx) (A, th) =
      (A ++ cpIncluded ctx pack,
        listMinQ th ((cpIncluded ctx pack).map (breakRatio ctx))) := by
  induction pack with
  | nil => intro A th; simp [cpIncluded, listMinQ]
  | cons e rest ih =>
    intro A th
    by_cases hc : pivotTolTa ctx.updateCount < cpAlpha ctx e
    · have halpha : 0 < cpAlpha ctx e := lt_trans (pivotTolTa_pos _) hc
      have hstep : cpStep ctx (A, th) e =
          (A ++ [(e.1, cpAlpha ctx e)],
            minStepQ th (breakRatio ctx (e.1, cpAlpha ctx e))) := by
        unfold cpStep minStepQ breakRatio
        rw [if_pos hc]
        cases th with
        | none => rfl
        | some t =>
          simp only
          by_cases hlt : ctx.workDual e.1 * ctx.workMove e.1 + ctx.Td < t * cpAlpha ctx e
          · rw [if_pos hlt, if_pos ((div_lt_iff₀ halpha).mpr hlt)]
          · rw [if_neg hlt, if_neg (fun hcon => hlt ((div_lt_iff₀ halpha).mp hcon))]
      have hinc : cpIncluded ctx (e :: rest) =
          (e.1, cpAlpha ctx e) :: cpIncluded ctx rest := by
        unfold cpIncluded
        rw [List.filterMap_cons, if_pos hc]
      rw [List.foldl_cons, hstep, ih, hinc]
      simp [listMinQ]
    · have hstep : cpStep ctx (A, th) e = (A, th) := by
        unfold cpStep
        rw [if_neg hc]
      have hinc : cpIncluded ctx (e :: rest) = cpIncluded ctx rest := by
        unfold cpIncluded
        rw [List.filterMap_cons, if_neg hc]
      rw [List.foldl_cons, hstep, ih, hinc]

/-- Claim C6: `choosePossible` includes a packed column if and only if its
signed scaled pivot magnitude `packValue * sourceOut * move` strictly exceeds
the three-tier threshold (1e-9 below 10 updates, 3e-8 for 10-19, 1e-6 from
20 on), keeping the candidates in packed order with their magnitudes, and on
return `workTheta` is the minimum over the included candidates of
`(workDual * move + Td) / magnitude`, remaining infinite (`none`) when no
candidate is included. -/
theorem c6_choosePossible_spec (ctx : DualRowCtx) (pack : List (ℤ × ℚ)) :
    (choosePossible ctx pack).1 =
      pack.filterMap (fun e =>
        let alpha := e.2 * sourceOut ctx.workDelta * ctx.workMove e.1
        if (if ctx.updateCount < 10 then (1 : ℚ) / 10 ^ 9
            else if ctx.updateCount < 20 then 3 / 10 ^ 8
            else 1 / 10 ^ 6) < alpha
        then some (e.1, alpha) else none)
    ∧ (choosePossible ctx pack).2 =
        listMinQ none (((choosePossible ctx pack).1).map (breakRatio ctx))
    ∧ ((choosePossible ctx pack).1 = [] → (choosePossible ctx pack).2 = none) := by
  have h := choosePossible_fold ctx pack [] none
  have h1 : (choosePossible ctx pack).1 = cpIncluded ctx pack := by
    unfold choosePossible
    rw [h]
    simp
  have h2 : (choosePossible ctx pack).2 =
      listMinQ none ((cpIncluded ctx pack).map (breakRatio ctx)) := by
    unfold choosePossible
    rw [h]
  refine ⟨?_, ?_, ?_⟩
  · rw [h1]
    unfold cpIncluded cpAlpha pivotTolTa
    rfl
  · rw [h2, h1]
  · intro hnil
    rw [h2, h1.symm, hnil]
    simp [listMinQ]

/-- Witness for C6 (its statement contains an implication) at a concrete
two-entry packed row with one candidate above tolerance. -/
theorem c6_choosePossible_spec_witness :
    (choosePossible ctxC6w [(3, 2), (7, 0)]).1 =
      ([(3, 2), (7, 0)] : List (ℤ × ℚ)).filterMap (fun e =>
        let alpha := e.2 * sourceOut ctxC6w.workDelta * ctxC6w.workMove e.1
        if (if ctxC6w.updateCount < 10 then (1 : ℚ) / 10 ^ 9
            else if ctxC6w.updateCount < 20 then 3 / 10 ^ 8
            else 1 / 10 ^ 6) < alpha
        then some (e.1, alpha) else none)
    ∧ (choosePossible ctxC6w [(3, 2), (7, 0)]).2 =
        listMinQ none (((choosePossible ctxC6w [(3, 2), (7, 0)]).1).map (breakRatio ctxC6w))
    ∧ ((choosePossible ctxC6w [(3, 2), (7, 0)]).1 = [] →
        (choosePossible ctxC6w [(3, 2), (7, 0)]).2 = none) :=
  c6_choosePossible_spec _ _

/-- Unfolding `occSum` over the head of the packed list. -/
lemma occSum_cons (e : ℤ × ℚ) (rest : List (ℤ × ℚ)) (j : ℤ) :
    occSum (e :: rest) j = (if e.1 = j then e.2 else 0) + occSum rest j := by
  unfold occSum
  by_cases h : e.1 = j
  · rw [List.filter_cons_of_pos (by simpa using h), if_pos h]
    simp
  · rw [List.filter_cons_of_neg (by simpa using h), if_neg h]
    simp

/-- The dual-array component of the fold of `updateDual`, from an arbitrary
start array. -/
lemma updateDual_fold (ctx : DualRowCtx) (theta : ℚ) (pack : List (ℤ × ℚ)) :
    ∀ (wd : ℤ → ℚ) (obj : ℚ) (j : ℤ),
    (pack.foldl (updateDualStep ctx theta) (wd, obj)).1 j =
      wd j - theta * occSum pack j := by
  induction pack with
  | nil => intro wd obj j; simp [occSum]
  | cons e rest ih =>
    intro wd obj j
    rw [List.foldl_cons,
      show updateDualStep ctx theta (wd, obj) e =
        ((fun j => if j = e.1 then wd e.1 - theta * e.2 else wd j),
          obj + ctx.nonbasicFlag e.1 * (-(ctx.workValue e.1) * (theta * e.2)) *
            ctx.costScale) from rfl,
      ih, occSum_cons]
    by_cases hj : j = e.1
    · subst hj
      rw [if_pos rfl, if_pos rfl]
      ring
    · rw [if_neg hj, if_neg (fun h => hj h.symm)]
      ring

/-- Claim C9: `updateDual(theta)` decreases the dual value of every column in
the packed index list by `theta` times the total packed value carried by that
column (accumulating over repeated occurrences), and leaves every column not
in the packed index list unchanged. -/
theorem c9_updateDual_frame (ctx : DualRowCtx) (pack : List (ℤ × ℚ))
    (theta : ℚ) (j : ℤ) :
    (updateDual ctx pack theta).1 j = ctx.workDual j - theta * occSum pack j
    ∧ (j ∉ pack.map Prod.fst → (updateDual ctx pack theta).1 j = ctx.workDual j) := by
  have h := updateDual_fold ctx theta pack ctx.workDual 0 j
  refine ⟨h, ?_⟩
  intro hnot
  have hz : occSum pack j = 0 := by
    unfold occSum
    have : pack.filter (fun e => e.1 = j) = [] := by
      rw [List.filter_eq_nil_iff]
      intro e he
      simp only [decide_eq_true_eq]
      intro heq
      exact hnot (heq ▸ List.mem_map_of_mem Prod.fst he)
    rw [this]
    simp
  unfold updateDual
  rw [h, hz]
  ring

/-- Witness for C9: column 7 does not occur in the packed row, so its dual
value is unchanged. -/
theorem c9_updateDual_frame_witness :
    (7 : ℤ) ∉ (([(1, 2), (1, 3)] : List (ℤ × ℚ)).map Prod.fst)
    ∧ (updateDual ctxDual5 [(1, 2), (1, 3)] 10).1 7 = ctxDual5.workDual 7 :=
  ⟨by decide, (c9_updateDual_frame ctxDual5 [(1, 2), (1, 3)] 10 7).2 (by decide)⟩

/-- Rotation preserves length. -/
lemma rotl_length {α : Type} (l : List α) : (rotl l).length = l.length := by
  cases l <;> simp [rotl]

/-- The admitted block only grows during a pass. -/
lemma quadPassAux_adm_le (ctx : DualRowCtx) (selT : ℚ) :
    ∀ (pend adm rej : List (ℤ × ℚ)) (tc rem : ℚ),
    adm.length ≤ (quadPassAux ctx selT pend adm rej tc rem).1.length := by
  intro pend
  induction pend with
  | nil => intro adm rej tc rem; simp [quadPassAux]
  | cons e rest ih =>
    intro adm rej tc rem
    simp only [quadPassAux]
    split_ifs with h1 h2
    · calc adm.length ≤ (adm ++ [e]).length := by simp
        _ ≤ _ := ih _ _ _ _
    · exact ih _ _ _ _
    · exact ih _ _ _ _

/-- A pass conserves the total number of candidates. -/
lemma quadPassAux_length (ctx : DualRowCtx) (selT : ℚ) :
    ∀ (pend adm rej : List (ℤ × ℚ)) (tc rem : ℚ),
    (quadPassAux ctx selT pend adm rej tc rem).1.length +
      (quadPassAux ctx selT pend adm rej tc rem).2.1.length =
      adm.length + rej.length + pend.length := by
  intro pend
  induction pend with
  | nil => intro adm rej tc rem; simp [quadPassAux]
  | cons e rest ih =>
    intro adm rej tc rem
    simp only [quadPassAux]
    split_ifs with h1 h2
    · rw [ih]
      simp [rotl_length]
      omega
    · rw [ih]
      simp
      omega
    · rw [ih]
      simp
      omega

/-- A pass that admits nothing leaves the candidate block unchanged and
computes the selectTheta-independent remain value. -/
lemma quadPassAux_no_admit (ctx : DualRowCtx) (selT : ℚ) :
    ∀ (pend adm rej : List (ℤ × ℚ)) (tc rem : ℚ),
    (quadPassAux ctx selT pend adm rej tc rem).1.length = adm.length →
    quadPassAux ctx selT pend adm rej tc rem =
      (adm, rej ++ pend, tc, remainPure ctx pend rem) := by
  intro pend
  induction pend with
  | nil => intro adm rej tc rem _; simp [quadPassAux, remainPure]
  | cons e rest ih =>
    intro adm rej tc rem hlen
    simp only [quadPassAux] at hlen ⊢
    by_cases h1 : ctx.workMove e.1 * ctx.workDual e.1 ≤ selT * e.2
    · exfalso
      rw [if_pos h1] at hlen
      have hle := quadPassAux_adm_le ctx selT rest (adm ++ [e]) (rotl rej)
        (tc + e.2 * ctx.workRange e.1) rem
      rw [hlen] at hle
      simp at hle
    · rw [if_neg h1] at hlen ⊢
      by_cases h2 : ctx.workMove e.1 * ctx.workDual e.1 + ctx.Td < rem * e.2
      · rw [if_pos h2] at hlen ⊢
        rw [show remainPure ctx (e :: rest) rem =
            remainPure ctx rest ((ctx.workMove e.1 * ctx.workDual e.1 + ctx.Td) / e.2) from by
          simp only [remainPure]
          rw [if_pos h2]]
        rw [ih _ _ _ _ hlen]
        simp
      · rw [if_neg h2] at hlen ⊢
        rw [show remainPure ctx (e :: rest) rem = remainPure ctx rest rem from by
          simp only [remainPure]
          rw [if_neg h2]]
        rw [ih _ _ _ _ hlen]
        simp

/-- Unfolding one iteration of the quad loop. -/
lemma quadLoop_succ (ctx : DualRowCtx) (td : ℚ) (fc : ℕ) (fuel : ℕ) (st : QuadSt) :
    quadLoop ctx td fc (fuel + 1) st =
      match quadStep ctx td fc st with
      | Sum.inl r => some r
      | Sum.inr st2 => quadLoop ctx td fc fuel st2 := rfl

/-- The result of the quad loop is stable under extra fuel. -/
lemma quadLoop_mono (ctx : DualRowCtx) (td : ℚ) (fc : ℕ) :
    ∀ (fuel : ℕ) (st : QuadSt) (r : Bool × QuadSt),
    quadLoop ctx td fc fuel st = some r →
    ∀ g, fuel ≤ g → quadLoop ctx td fc g st = some r := by
  intro fuel
  induction fuel with
  | zero => intro st r h; simp [quadLoop] at h
  | succ f ih =>
    intro st r h g hg
    obtain ⟨g', rfl⟩ : ∃ g', g = g' + 1 := ⟨g - 1, by omega⟩
    rw [quadLoop_succ] at h ⊢
    cases hq : quadStep ctx td fc st with
    | inl rr => rw [hq] at h; simpa [hq] using h
    | inr st2 =>
      rw [hq] at h
      simp only at h
      simp only
      exact ih st2 r h g' (by omega)

/-- Case analysis of one iteration of the quad loop: it returns immediately,
or continues with strictly fewer pending candidates, or continues after a
pass that admitted nothing, in which case the new state repeats the pending
block, records the pass's selectTheta-independent remain value in all three
stagnation fields, and the stagnation test on the current state failed. -/
lemma quadStep_cases (ctx : DualRowCtx) (td : ℚ) (fc : ℕ) (st : QuadSt) :
    (∃ r, quadStep ctx td fc st = Sum.inl r)
    ∨ (∃ st2, quadStep ctx td fc st = Sum.inr st2
        ∧ st2.pending.length < st.pending.length)
    ∨ (∃ st2, quadStep ctx td fc st = Sum.inr st2
        ∧ st2.admitted = st.admitted
        ∧ st2.pending = st.pending
        ∧ st2.prevW = st.admitted.length
        ∧ st2.prevRemain = remainPure ctx st.pending quadIzRemain
        ∧ st2.prevSelect = some (remainPure ctx st.pending quadIzRemain)
        ∧ ¬(st.admitted.length = st.prevW
            ∧ st.prevSelect = some (remainPure ctx st.pending quadIzRemain)
            ∧ st.prevRemain = remainPure ctx st.pending quadIzRemain)) := by
  unfold quadStep
  cases hsel : st.selectTheta with
  | none => exact Or.inl ⟨_, rfl⟩
  | some t =>
    simp only
    by_cases hlt : t < 10 ^ 18
    · rw [if_pos hlt]
      by_cases hstag : (quadPassAux ctx t st.pending st.admitted [] st.totalChange quadIzRemain).1.length = st.prevW
          ∧ st.prevSelect = some (quadPassAux ctx t st.pending st.admitted [] st.totalChange quadIzRemain).2.2.2
          ∧ st.prevRemain = (quadPassAux ctx t st.pending st.admitted [] st.totalChange quadIzRemain).2.2.2
      · rw [if_pos hstag]
        exact Or.inl ⟨_, rfl⟩
      · rw [if_neg hstag]
        by_cases hbrk : td ≤ (quadPassAux ctx t st.pending st.admitted [] st.totalChange quadIzRemain).2.2.1
            ∨ (quadPassAux ctx t st.pending st.admitted [] st.totalChange quadIzRemain).1.length = fc
        · rw [if_pos hbrk]
          exact Or.inl ⟨_, rfl⟩
        · rw [if_neg hbrk]
          by_cases hadm : (quadPassAux ctx t st.pending st.admitted [] st.totalChange quadIzRemain).1.length = st.admitted.length
          · refine Or.inr (Or.inr ⟨_, rfl, ?_⟩)
            have hna := quadPassAux_no_admit ctx t st.pending st.admitted []
              st.totalChange quadIzRemain hadm
            rw [hna]
            refine ⟨rfl, by simp, by simp [hna, hadm], rfl, rfl, ?_⟩
            rw [hna] at hstag
            simpa [hadm] using hstag
          · refine Or.inr (Or.inl ⟨_, rfl, ?_⟩)
            have hle := quadPassAux_adm_le ctx t st.pending st.admitted []
              st.totalChange quadIzRemain
            have hlen := quadPassAux_length ctx t st.pending st.admitted []
              st.totalChange quadIzRemain
            simp only [List.length_nil] at hlen
            have : st.admitted.length < (quadPassAux ctx t st.pending st.admitted []
              st.totalChange quadIzRemain).1.length := lt_of_le_of_ne hle (fun h => hadm h.symm)
            simp only
            omega
    · rw [if_neg hlt]
      exact Or.inl ⟨_, rfl⟩

/-- Termination bound for the quad loop: any state with at most `n` pending
candidates finishes within `2 n + 2` passes. -/
lemma quadLoop_terminates (ctx : DualRowCtx) (td : ℚ) (fc : ℕ) :
    ∀ (n : ℕ) (st : QuadSt), st.pending.length ≤ n →
    ∀ fuel, 2 * n + 2 ≤ fuel → (quadLoop ctx td fc fuel st).isSome := by
  intro n
  induction n with
  | zero =>
    intro st hlen fuel hfuel
    obtain ⟨f, rfl⟩ : ∃ f, fuel = f + 1 := ⟨fuel - 1, by omega⟩
    rw [quadLoop_succ]
    rcases quadStep_cases ctx td fc st with ⟨r, hr⟩ | ⟨st2, hr, hsm⟩ |
      ⟨st2, hr, ha, hp, hw, hrm, hps, hneg⟩
    · rw [hr]; rfl
    · omega
    · rw [hr]
      obtain ⟨f2, rfl⟩ : ∃ f2, f = f2 + 1 := ⟨f - 1, by omega⟩
      show (quadLoop ctx td fc (f2 + 1) st2).isSome
      rw [quadLoop_succ]
      rcases quadStep_cases ctx td fc st2 with ⟨r2, hr2⟩ | ⟨st3, hr2, hsm2⟩ |
        ⟨st3, hr2, _, _, _, _, _, hneg2⟩
      · rw [hr2]; rfl
      · exfalso; rw [hp] at hsm2; omega
      · exact absurd ⟨by rw [ha, hw], by rw [hp, hps], by rw [hp, hrm]⟩ hneg2
  | succ n ih =>
    intro st hlen fuel hfuel
    obtain ⟨f, rfl⟩ : ∃ f, fuel = f + 1 := ⟨fuel - 1, by omega⟩
    rw [quadLoop_succ]
    rcases quadStep_cases ctx td fc st with ⟨r, hr⟩ | ⟨st2, hr, hsm⟩ |
      ⟨st2, hr, ha, hp, hw, hrm, hps, hneg⟩
    · rw [hr]; rfl
    · rw [hr]
      exact ih st2 (by omega) f (by omega)
    · rw [hr]
      obtain ⟨f2, rfl⟩ : ∃ f2, f = f2 + 1 := ⟨f - 1, by omega⟩
      show (quadLoop ctx td fc (f2 + 1) st2).isSome
      rw [quadLoop_succ]
      rcases quadStep_cases ctx td fc st2 with ⟨r2, hr2⟩ | ⟨st3, hr2, hsm2⟩ |
        ⟨st3, hr2, _, _, _, _, _, hneg2⟩
      · rw [hr2]; rfl
      · rw [hr2]
        refine ih st3 ?_ f2 (by omega)
        rw [hp] at hsm2
        omega
      · exact absurd ⟨by rw [ha, hw], by rw [hp, hps], by rw [hp, hrm]⟩ hneg2

/-- A pass on which workCount, selectTheta and remainTheta all repeat their
previous values makes the loop return `false` at once. -/
lemma quadStep_stagnation (ctx : DualRowCtx) (td : ℚ) (fc : ℕ) (st : QuadSt)
    (t : ℚ) (hsel : st.selectTheta = some t) (hlt : t < 10 ^ 18)
    (h1 : (quadPassAux ctx t st.pending st.admitted [] st.totalChange quadIzRemain).1.length = st.prevW)
    (h2 : st.prevSelect = some (quadPassAux ctx t st.pending st.admitted [] st.totalChange quadIzRemain).2.2.2)
    (h3 : st.prevRemain = (quadPassAux ctx t st.pending st.admitted [] st.totalChange quadIzRemain).2.2.2) :
    ∃ st1, quadStep ctx td fc st = Sum.inl (false, st1) := by
  unfold quadStep
  cases hs2 : st.selectTheta with
  | none => rw [hs2] at hsel; cases hsel
  | some t2 =>
    rw [hs2] at hsel
    injection hsel with ht
    subst ht
    simp only
    rw [if_pos hlt, if_pos ⟨h1, h2, h3⟩]
    exact ⟨_, rfl⟩

/-- Stagnation makes the whole loop return `false` immediately, for any
remaining fuel: the failing pass is never retried. -/
lemma quadLoop_stagnation (ctx : DualRowCtx) (td : ℚ) (fc : ℕ) (st : QuadSt)
    (t : ℚ) (fuel : ℕ) (hsel : st.selectTheta = some t) (hlt : t < 10 ^ 18)
    (h1 : (quadPassAux ctx t st.pending st.admitted [] st.totalChange quadIzRemain).1.length = st.prevW)
    (h2 : st.prevSelect = some (quadPassAux ctx t st.pending st.admitted [] st.totalChange quadIzRemain).2.2.2)
    (h3 : st.prevRemain = (quadPassAux ctx t st.pending st.admitted [] st.totalChange quadIzRemain).2.2.2) :
    ∃ st1, quadLoop ctx td fc (fuel + 1) st = some (false, st1) := by
  obtain ⟨st1, h⟩ := quadStep_stagnation ctx td fc st t hsel hlt h1 h2 h3
  exact ⟨st1, by rw [quadLoop_succ, h]⟩

/-- Claim C2: `chooseFinalWorkGroupQuad` terminates for every input — a fuel
of twice the candidate count plus two always suffices, and the result is
stable under any larger fuel (so the loop can never run forever) — and a
pass that changes none of workCount, selectTheta and remainTheta (all three
equal to their recorded previous values) makes it return `false` as an
explicit failure signal immediately, with no further passes. -/
theorem c2_quad_terminates_and_fails_on_stagnation (ctx : DualRowCtx)
    (workTheta : Option ℚ) (input : List (ℤ × ℚ)) :
    (chooseFinalWorkGroupQuad ctx workTheta input (2 * input.length + 2)).isSome
    ∧ (∀ fuel r, chooseFinalWorkGroupQuad ctx workTheta input fuel = some r →
        ∀ g, fuel ≤ g → chooseFinalWorkGroupQuad ctx workTheta input g = some r)
    ∧ (∀ (td : ℚ) (fc : ℕ) (st : QuadSt) (t : ℚ) (fuel : ℕ),
        st.selectTheta = some t → t < 10 ^ 18 →
        (quadPassAux ctx t st.pending st.admitted [] st.totalChange quadIzRemain).1.length = st.prevW →
        st.prevSelect = some (quadPassAux ctx t st.pending st.admitted [] st.totalChange quadIzRemain).2.2.2 →
        st.prevRemain = (quadPassAux ctx t st.pending st.admitted [] st.totalChange quadIzRemain).2.2.2 →
        ∃ st1, quadLoop ctx td fc (fuel + 1) st = some (false, st1)) := by
  refine ⟨?_, ?_, ?_⟩
  · exact quadLoop_terminates ctx |ctx.workDelta| input.length input.length _
      (le_refl _) _ (le_refl _)
  · intro fuel r h g hg
    exact quadLoop_mono ctx |ctx.workDelta| input.length fuel _ r h g hg
  · intro td fc st t fuel hsel hlt h1 h2 h3
    exact quadLoop_stagnation ctx td fc st t fuel hsel hlt h1 h2 h3

/-- Witness for C2: a concrete stagnating state (reached from the input
row [(0,1)] with dual 5 and tolerance -1 after one pass) on which the loop
returns the failure signal at once. -/
theorem c2_quad_terminates_and_fails_on_stagnation_witness :
    (quadStagSt.selectTheta = some 4 ∧ (4 : ℚ) < 10 ^ 18
      ∧ (quadPassAux ctxC2w 4 quadStagSt.pending quadStagSt.admitted []
          quadStagSt.totalChange quadIzRemain).1.length = quadStagSt.prevW
      ∧ quadStagSt.prevSelect = some (quadPassAux ctxC2w 4 quadStagSt.pending
          quadStagSt.admitted [] quadStagSt.totalChange quadIzRemain).2.2.2
      ∧ quadStagSt.prevRemain = (quadPassAux ctxC2w 4 quadStagSt.pending
          quadStagSt.admitted [] quadStagSt.totalChange quadIzRemain).2.2.2)
    ∧ ∃ st1, quadLoop ctxC2w 100 1 (0 + 1) quadStagSt = some (false, st1) := by
  have hsel : quadStagSt.selectTheta = some 4 := rfl
  have hlt : (4 : ℚ) < 10 ^ 18 := by norm_num
  have h1 : (quadPassAux ctxC2w 4 quadStagSt.pending quadStagSt.admitted []
      quadStagSt.totalChange quadIzRemain).1.length = quadStagSt.prevW := by
    norm_num [quadPassAux, quadStagSt, ctxC2w, baseCtx, quadIzRemain]
  have h2 : quadStagSt.prevSelect = some (quadPassAux ctxC2w 4 quadStagSt.pending
      quadStagSt.admitted [] quadStagSt.totalChange quadIzRemain).2.2.2 := by
    norm_num [quadPassAux, quadStagSt, ctxC2w, baseCtx, quadIzRemain]
  have h3 : quadStagSt.prevRemain = (quadPassAux ctxC2w 4 quadStagSt.pending
      quadStagSt.admitted [] quadStagSt.totalChange quadIzRemain).2.2.2 := by
    norm_num [quadPassAux, quadStagSt, ctxC2w, baseCtx, quadIzRemain]
  exact ⟨⟨hsel, hlt, h1, h2, h3⟩,
    (c2_quad_terminates_and_fails_on_stagnation ctxC2w none []).2.2 100 1
      quadStagSt 4 0 hsel hlt h1 h2 h3⟩

/-- Access at a nonnegative index reduces to list access. -/
lemma getE_natCast (data : List (ℤ × ℚ)) (k : ℕ) :
    getE data (k : ℤ) = data.getD k (0, 0) := by
  unfold getE
  rw [if_neg (by omega)]
  simp

/-- The junk read at index -1 yields the junk entry. -/
lemma getE_neg_one (data : List (ℤ × ℚ)) : getE data (-1) = (0, 0) := by
  unfold getE
  norm_num

/-- A slice within bounds is the indexed image of its index range. -/
lemma drop_take_eq_map (data : List (ℤ × ℚ)) :
    ∀ (n lo : ℕ), lo + n ≤ data.length →
    (data.drop lo).take n =
      (List.range' lo n).map (fun i => data.getD i (0, 0)) := by
  intro n
  induction n with
  | zero => intro lo _; simp
  | succ n ih =>
    intro lo h
    have hlo : lo < data.length := by omega
    rw [List.drop_eq_getElem_cons hlo, List.take_succ_cons, List.range'_succ,
      List.map_cons]
    congr 1
    · rw [List.getD_eq_getElem data (0, 0) hlo]
    · exact ih (lo + 1) (by omega)

/-- `segOf` within bounds is the indexed image of `[lo, hi)`. -/
lemma segOf_eq_map (data : List (ℤ × ℚ)) (lo hi : ℕ) (h : hi ≤ data.length) :
    segOf data lo hi = (List.range' lo (hi - lo)).map (fun i => data.getD i (0, 0)) := by
  unfold segOf
  by_cases hlh : lo ≤ hi
  · exact drop_take_eq_map data (hi - lo) lo (by omega)
  · rw [show hi - lo = 0 from by omega]
    simp

/-- The group scan preserves the invariant. -/
lemma scanGroupIdx_inv (data : List (ℤ × ℚ)) (perm : ℤ → ℕ) :
    ∀ (L S : List ℕ) (st : ℚ × ℤ),
    (∀ i ∈ L, 0 < valAt data i) →
    ScanInv data perm S st →
    ScanInv data perm (S ++ L) (scanGroupIdx data perm L st) := by
  intro L
  induction L with
  | nil => intro S st _ h; simpa using h
  | cons i0 rest ih =>
    intro S st hpos hinv
    have hv : 0 < valAt data i0 := hpos i0 (by simp)
    have hrest : ∀ i ∈ rest, 0 < valAt data i := fun i hi => hpos i (by simp [hi])
    rw [show S ++ i0 :: rest = (S ++ [i0]) ++ rest from by simp]
    simp only [scanGroupIdx]
    by_cases h1 : st.1 < (data.getD i0 (0, 0)).2
    · rw [if_pos h1]
      refine ih (S ++ [i0]) _ hrest (Or.inr ⟨hv, i0, by simp, rfl, rfl, ?_, ?_⟩)
      · intro i hi
        rcases List.mem_append.mp hi with hiS | hi0
        · rcases hinv with ⟨_, _, hb⟩ | ⟨_, _, _, _, _, hb, _⟩
          · exact le_trans (hb i hiS) (le_of_lt hv)
          · exact le_of_lt (lt_of_le_of_lt (hb i hiS) h1)
        · rw [List.mem_singleton.mp hi0]
          exact le_refl _
      · intro i hi hieq
        rcases List.mem_append.mp hi with hiS | hi0
        · exfalso
          rcases hinv with ⟨_, _, hb⟩ | ⟨_, _, _, _, _, hb, _⟩
          · have := hb i hiS
            rw [hieq] at this
            exact absurd this (not_le.mpr hv)
          · have := hb i hiS
            rw [hieq] at this
            exact absurd h1 (not_lt.mpr this)
        · rw [List.mem_singleton.mp hi0]
    · rw [if_neg h1]
      by_cases h2 : st.1 = (data.getD i0 (0, 0)).2
      · rw [if_pos h2]
        have hv0 : valAt data i0 = st.1 := h2.symm
        rcases hinv with ⟨hz, _, _⟩ | ⟨hstpos, k, hkS, hj, hvk, hub, htie⟩
        · exfalso
          have hv0z : valAt data i0 = 0 := by
            unfold valAt
            rw [← h2]
            exact hz
          rw [hv0z] at hv
          exact lt_irrefl 0 hv
        · have hjcol : (getE data st.2).1 = colAt data k := by
            rw [hj, getE_natCast]
            rfl
          by_cases hpc : perm ((data.getD i0 (0, 0)).1) < perm ((getE data st.2).1)
          · rw [if_pos hpc]
            rw [hjcol] at hpc
            refine ih (S ++ [i0]) _ hrest (Or.inr ⟨hstpos, i0, by simp, rfl, hv0, ?_, ?_⟩)
            · intro i hi
              rcases List.mem_append.mp hi with hiS | hi0
              · exact hub i hiS
              · rw [List.mem_singleton.mp hi0]
                exact le_of_eq hv0
            · intro i hi hieq
              rcases List.mem_append.mp hi with hiS | hi0
              · exact le_trans (le_of_lt hpc) (htie i hiS hieq)
              · rw [List.mem_singleton.mp hi0]
          · rw [if_neg hpc]
            rw [hjcol] at hpc
            refine ih (S ++ [i0]) _ hrest (Or.inr ⟨hstpos, k, by simp [hkS], hj, hvk, ?_, ?_⟩)
            · intro i hi
              rcases List.mem_append.mp hi with hiS | hi0
              · exact hub i hiS
              · rw [List.mem_singleton.mp hi0]
                exact le_of_eq hv0
            · intro i hi hieq
              rcases List.mem_append.mp hi with hiS | hi0
              · exact htie i hiS hieq
              · rw [List.mem_singleton.mp hi0]
                exact not_lt.mp hpc
      · rw [if_neg h2]
        have hv1 : (data.getD i0 (0, 0)).2 < st.1 :=
          lt_of_le_of_ne (not_lt.mp h1) (fun h => h2 h.symm)
        rcases hinv with ⟨hz, _, _⟩ | ⟨hstpos, k, hkS, hj, hvk, hub, htie⟩
        · exfalso
          rw [hz] at hv1
          exact absurd hv (not_lt.mpr (le_of_lt hv1))
        · refine ih (S ++ [i0]) _ hrest (Or.inr ⟨hstpos, k, by simp [hkS], hj, hvk, ?_, ?_⟩)
          · intro i hi
            rcases List.mem_append.mp hi with hiS | hi0
            · exact hub i hiS
            · rw [List.mem_singleton.mp hi0]
              exact le_of_lt hv1
          · intro i hi hieq
            rcases List.mem_append.mp hi with hiS | hi0
            · exact htie i hiS hieq
            · exfalso
              rw [List.mem_singleton.mp hi0] at hieq
              unfold valAt at hieq
              rw [hieq] at hv1
              exact lt_irrefl _ hv1

/-- Specification of the scan of one group `[lo, hi)` with in-range bound and
positive values: on an empty slice it returns the sentinel; otherwise it
returns an index of a maximal-value entry whose column has minimal
permutation index among the maximizers. -/
lemma scanGroup_spec (data : List (ℤ × ℚ)) (perm : ℤ → ℕ) (lo hi : ℕ)
    (hle : hi ≤ data.length)
    (hpos : ∀ e ∈ segOf data lo hi, 0 < e.2) :
    (segOf data lo hi = [] ∧ scanGroup data perm lo hi = (0, -1))
    ∨ (∃ k : ℕ, lo ≤ k ∧ k < hi ∧ (scanGroup data perm lo hi).2 = (k : ℤ)
        ∧ (scanGroup data perm lo hi).1 = valAt data k
        ∧ 0 < valAt data k
        ∧ data.getD k (0, 0) ∈ segOf data lo hi
        ∧ (∀ e ∈ segOf data lo hi, e.2 ≤ valAt data k)
        ∧ (∀ e ∈ segOf data lo hi, e.2 = valAt data k →
            perm (colAt data k) ≤ perm e.1)) := by
  have hmap := segOf_eq_map data lo hi hle
  by_cases hlh : hi ≤ lo
  · left
    have h0 : hi - lo = 0 := by omega
    constructor
    · unfold segOf
      rw [h0]
      simp
    · unfold scanGroup
      rw [h0]
      rfl
  · push_neg at hlh
    have hposIdx : ∀ i ∈ List.range' lo (hi - lo), 0 < valAt data i := by
      intro i hi2
      apply hpos
      rw [hmap]
      exact List.mem_map_of_mem _ hi2
    have hinv := scanGroupIdx_inv data perm (List.range' lo (hi - lo)) [] (0, -1)
      hposIdx (Or.inl ⟨rfl, rfl, by simp⟩)
    rw [List.nil_append] at hinv
    have hscan : scanGroup data perm lo hi =
        scanGroupIdx data perm (List.range' lo (hi - lo)) (0, -1) := rfl
    rcases hinv with ⟨_, _, hall⟩ | ⟨hpl, k, hk, hj, hvk, hub, htie⟩
    · exfalso
      have hlo : lo ∈ List.range' lo (hi - lo) := by
        rw [List.mem_range'_1]
        omega
      exact absurd (hall lo hlo) (not_le.mpr (hposIdx lo hlo))
    · right
      have hkr := List.mem_range'_1.mp hk
      refine ⟨k, by omega, by omega, by rw [hscan]; exact hj, by rw [hscan, ← hvk],
        by rw [hvk]; exact hpl, ?_, ?_, ?_⟩
      · rw [hmap]
        exact List.mem_map_of_mem _ hk
      · intro e he
        rw [hmap] at he
        obtain ⟨i, hi2, rfl⟩ := List.mem_map.mp he
        have hb := hub i hi2
        rw [← hvk] at hb
        exact hb
      · intro e he heq
        rw [hmap] at he
        obtain ⟨i, hi2, rfl⟩ := List.mem_map.mp he
        refine htie i hi2 ?_
        rw [← hvk]
        exact heq

/-- Specification of the backward group scan with a nonnegative cutoff,
in-range offsets and positive values: either no group qualifies (and then
every value of every scanned group is at most the cutoff), or the selected
group is the first in backward order holding a value above the cutoff, and
the selected index is a within-group maximizer of minimal permutation
index among the maximizers. -/
lemma scanGroups_spec (data : List (ℤ × ℚ)) (groups : List ℕ) (perm : ℤ → ℕ)
    (fc : ℚ) (hfc : 0 ≤ fc)
    (hle : ∀ g, groups.getD g 0 ≤ data.length)
    (hpos : ∀ g, ∀ e ∈ segOf data (groups.getD g 0) (groups.getD (g + 1) 0), 0 < e.2) :
    ∀ G : ℕ,
    (scanGroups data groups perm fc G = (-1, -1)
      ∧ ∀ g, g < G → ∀ e ∈ segOf data (groups.getD g 0) (groups.getD (g + 1) 0), e.2 ≤ fc)
    ∨ (∃ g, g < G ∧ (scanGroups data groups perm fc G).2 = (g : ℤ)
        ∧ (∀ g2, g < g2 → g2 < G →
            ∀ e ∈ segOf data (groups.getD g2 0) (groups.getD (g2 + 1) 0), e.2 ≤ fc)
        ∧ ∃ k : ℕ, groups.getD g 0 ≤ k ∧ k < groups.getD (g + 1) 0
            ∧ (scanGroups data groups perm fc G).1 = (k : ℤ)
            ∧ data.getD k (0, 0) ∈ segOf data (groups.getD g 0) (groups.getD (g + 1) 0)
            ∧ fc < valAt data k
            ∧ (∀ e ∈ segOf data (groups.getD g 0) (groups.getD (g + 1) 0),
                e.2 ≤ valAt data k)
            ∧ (∀ e ∈ segOf data (groups.getD g 0) (groups.getD (g + 1) 0),
                e.2 = valAt data k → perm (colAt data k) ≤ perm e.1)) := by
  intro G
  induction G with
  | zero =>
    left
    exact ⟨rfl, by omega⟩
  | succ G ih =>
    simp only [scanGroups]
    rcases scanGroup_spec data perm (groups.getD G 0) (groups.getD (G + 1) 0)
        (hle (G + 1)) (hpos G) with
      ⟨hseg, hm⟩ | ⟨k, hk1, hk2, hj, hv, hkpos, hkmem, hub, htie⟩
    · rw [hm, getE_neg_one]
      rw [if_neg (by simpa using not_lt.mpr hfc)]
      rcases ih with ⟨h1, h2⟩ | ⟨g, hg, hj2, hbetween, rest⟩
      · left
        refine ⟨h1, ?_⟩
        intro g hgG e he
        by_cases hgG2 : g < G
        · exact h2 g hgG2 e he
        · have hgeq : g = G := by omega
          subst hgeq
          rw [hseg] at he
          cases he
      · right
        refine ⟨g, by omega, hj2, ?_, rest⟩
        intro g2 hg2 hg2G e he
        by_cases hgG2 : g2 < G
        · exact hbetween g2 hg2 hgG2 e he
        · have hgeq : g2 = G := by omega
          subst hgeq
          rw [hseg] at he
          cases he
    · rw [hj, getE_natCast]
      by_cases hq : fc < (data.getD k (0, 0)).2
      · rw [if_pos hq]
        right
        refine ⟨G, by omega, rfl, by omega, k, hk1, hk2, rfl, hkmem, hq, hub, htie⟩
      · rw [if_neg hq]
        have hbound : ∀ e ∈ segOf data (groups.getD G 0) (groups.getD (G + 1) 0),
            e.2 ≤ fc := by
          intro e he
          exact le_trans (hub e he) (not_lt.mp hq)
        rcases ih with ⟨h1, h2⟩ | ⟨g, hg, hj2, hbetween, rest⟩
        · left
          refine ⟨h1, ?_⟩
          intro g hgG e he
          by_cases hgG2 : g < G
          · exact h2 g hgG2 e he
          · have hgeq : g = G := by omega
            subst hgeq
            exact hbound e he
        · right
          refine ⟨g, by omega, hj2, ?_, rest⟩
          intro g2 hg2 hg2G e he
          by_cases hgG2 : g2 < G
          · exact hbetween g2 hg2 hgG2 e he
          · have hgeq : g2 = G := by omega
            subst hgeq
            exact hbound e he

/-- Any entry of a group slice below the admitted count lies in the admitted
block. -/
lemma seg_subset_take (data : List (ℤ × ℚ)) (lo hi wc : ℕ)
    (hhi : hi ≤ wc) (hwc : wc ≤ data.length) :
    ∀ e ∈ segOf data lo hi, e ∈ data.take wc := by
  intro e he
  rw [segOf_eq_map data lo hi (le_trans hhi hwc)] at he
  obtain ⟨i, hi2, rfl⟩ := List.mem_map.mp he
  have hir := List.mem_range'_1.mp hi2
  rw [show data.take wc = segOf data 0 wc from by unfold segOf; simp,
    segOf_eq_map data 0 wc hwc]
  refine List.mem_map_of_mem _ ?_
  rw [List.mem_range'_1]
  omega

/-- A group offset read through `getD` is bounded by the common bound of the
offsets. -/
lemma getD_le_of_mem (groups : List ℕ) (wc : ℕ)
    (hmem : ∀ x ∈ groups, x ≤ wc) (g : ℕ) : groups.getD g 0 ≤ wc := by
  by_cases hg : g < groups.length
  · rw [List.getD_eq_getElem groups 0 hg]
    exact hmem _ (List.getElem_mem hg)
  · rw [List.getD_eq_default groups 0 (by omega)]
    omega

/-- The seed of a running maximum is a lower bound of the result. -/
lemma le_foldl_max {α : Type} (f : α → ℚ) :
    ∀ (l : List α) (a : ℚ), a ≤ l.foldl (fun m i => max m (f i)) a := by
  intro l
  induction l with
  | nil => intro a; simp
  | cons x t ih => intro a; exact le_trans (le_max_left a (f x)) (ih (max a (f x)))

/-- `finalCompare` before capping is nonnegative. -/
lemma maxValLoop_nonneg (data : List (ℤ × ℚ)) (wc : ℕ) :
    0 ≤ maxValLoop data wc := by
  unfold maxValLoop
  exact le_foldl_max _ _ 0

/-- `maxValLoop` is the running maximum of the packed values of the admitted
block. -/
lemma maxValLoop_eq_take (data : List (ℤ × ℚ)) (wc : ℕ) (hwc : wc ≤ data.length) :
    maxValLoop data wc = ((data.take wc).map Prod.snd).foldl max 0 := by
  unfold maxValLoop
  rw [show data.take wc = segOf data 0 wc from by unfold segOf; simp,
    segOf_eq_map data 0 wc hwc, List.map_map, List.foldl_map, List.range_eq_range']
  rfl

/-- Claim C7: when `chooseFinalLargeAlpha` selects a group (breakGroup `g`),
that group is the first one, scanning from the last admitted group backward,
that contains a candidate whose magnitude exceeds
`min(0.1 * maximum admitted magnitude, 1)`: every group after `g` lies
entirely at or below the cutoff, group `g` holds a candidate above it, and
the returned breakIndex points at a candidate of maximal magnitude within
group `g`. -/
theorem c7_chooseFinalLargeAlpha_spec (ctx : DualRowCtx) (data : List (ℤ × ℚ))
    (groups : List ℕ) (wc : ℕ) (g : ℕ)
    (hmem : ∀ x ∈ groups, x ≤ wc) (hwc : wc ≤ data.length)
    (hpos : ∀ e ∈ data.take wc, 0 < e.2)
    (hg : (chooseFinalLargeAlpha ctx data groups wc).2 = (g : ℤ)) :
    g < groups.length - 1
    ∧ (∃ e ∈ segOf data (groups.getD g 0) (groups.getD (g + 1) 0),
        min (1 / 10 * maxValLoop data wc) 1 < e.2)
    ∧ (∀ g2, g < g2 → g2 < groups.length - 1 →
        ∀ e ∈ segOf data (groups.getD g2 0) (groups.getD (g2 + 1) 0),
          e.2 ≤ min (1 / 10 * maxValLoop data wc) 1)
    ∧ (∃ k : ℕ, (chooseFinalLargeAlpha ctx data groups wc).1 = (k : ℤ)
        ∧ groups.getD g 0 ≤ k ∧ k < groups.getD (g + 1) 0
        ∧ data.getD k (0, 0) ∈ segOf data (groups.getD g 0) (groups.getD (g + 1) 0)
        ∧ min (1 / 10 * maxValLoop data wc) 1 < (data.getD k (0, 0)).2
        ∧ ∀ e ∈ segOf data (groups.getD g 0) (groups.getD (g + 1) 0),
            e.2 ≤ (data.getD k (0, 0)).2) := by
  have hfc : 0 ≤ min (1 / 10 * maxValLoop data wc) 1 := by
    have := maxValLoop_nonneg data wc
    exact le_min (by linarith) (by norm_num)
  have hle : ∀ g2, groups.getD g2 0 ≤ data.length :=
    fun g2 => le_trans (getD_le_of_mem groups wc hmem g2) hwc
  have hposg : ∀ g2, ∀ e ∈ segOf data (groups.getD g2 0) (groups.getD (g2 + 1) 0),
      0 < e.2 := by
    intro g2 e he
    exact hpos e (seg_subset_take data _ _ wc
      (getD_le_of_mem groups wc hmem (g2 + 1)) hwc e he)
  have hcf : chooseFinalLargeAlpha ctx data groups wc =
      scanGroups data groups ctx.perm (min (1 / 10 * maxValLoop data wc) 1)
        (groups.length - 1) := rfl
  rcases scanGroups_spec data groups ctx.perm _ hfc hle hposg (groups.length - 1) with
    ⟨hres, _⟩ | ⟨g2, hg2len, hj2, hbetween, k, hk1, hk2, hj1, hkmem, hq, hub, htie⟩
  · exfalso
    rw [hcf, hres] at hg
    have hgz : (-1 : ℤ) = (g : ℤ) := hg
    omega
  · rw [hcf, hj2] at hg
    have hgg : g = g2 := by exact_mod_cast hg.symm
    subst hgg
    exact ⟨hg2len, ⟨data.getD k (0, 0), hkmem, hq⟩, hbetween, k,
      by rw [hcf]; exact hj1, hk1, hk2, hkmem, hq, hub⟩

/-- Witness for C7: the concrete candidate array [(3,2),(7,1)] split into two
one-element groups; the backward scan accepts the last group, whose single
candidate has magnitude 1 above the cutoff 1/5. -/
theorem c7_chooseFinalLargeAlpha_spec_witness :
    ((∀ x ∈ [0, 1, 2], x ≤ 2) ∧ 2 ≤ ([(3, 2), (7, 1)] : List (ℤ × ℚ)).length
      ∧ (∀ e ∈ ([(3, 2), (7, 1)] : List (ℤ × ℚ)).take 2, 0 < e.2)
      ∧ (chooseFinalLargeAlpha baseCtx [(3, 2), (7, 1)] [0, 1, 2] 2).2 = ((1 : ℕ) : ℤ))
    ∧ ((1 : ℕ) < [0, 1, 2].length - 1
      ∧ (∃ e ∈ segOf [(3, 2), (7, 1)] ([0, 1, 2].getD 1 0) ([0, 1, 2].getD 2 0),
          min (1 / 10 * maxValLoop [(3, 2), (7, 1)] 2) 1 < e.2)
      ∧ (∀ g2, 1 < g2 → g2 < [0, 1, 2].length - 1 →
          ∀ e ∈ segOf [(3, 2), (7, 1)] ([0, 1, 2].getD g2 0) ([0, 1, 2].getD (g2 + 1) 0),
            e.2 ≤ min (1 / 10 * maxValLoop [(3, 2), (7, 1)] 2) 1)
      ∧ (∃ k : ℕ, (chooseFinalLargeAlpha baseCtx [(3, 2), (7, 1)] [0, 1, 2] 2).1 = (k : ℤ)
          ∧ [0, 1, 2].getD 1 0 ≤ k ∧ k < [0, 1, 2].getD 2 0
          ∧ ([(3, 2), (7, 1)] : List (ℤ × ℚ)).getD k (0, 0) ∈
              segOf [(3, 2), (7, 1)] ([0, 1, 2].getD 1 0) ([0, 1, 2].getD 2 0)
          ∧ min (1 / 10 * maxValLoop [(3, 2), (7, 1)] 2) 1 <
              (([(3, 2), (7, 1)] : List (ℤ × ℚ)).getD k (0, 0)).2
          ∧ ∀ e ∈ segOf [(3, 2), (7, 1)] ([0, 1, 2].getD 1 0) ([0, 1, 2].getD 2 0),
              e.2 ≤ (([(3, 2), (7, 1)] : List (ℤ × ℚ)).getD k (0, 0)).2)) := by
  have hmem : ∀ x ∈ [0, 1, 2], x ≤ 2 := by decide
  have hwc : 2 ≤ ([(3, 2), (7, 1)] : List (ℤ × ℚ)).length := by decide
  have hpos : ∀ e ∈ ([(3, 2), (7, 1)] : List (ℤ × ℚ)).take 2, 0 < e.2 := by decide
  have hg : (chooseFinalLargeAlpha baseCtx [(3, 2), (7, 1)] [0, 1, 2] 2).2 = ((1 : ℕ) : ℤ) := by
    norm_num [chooseFinalLargeAlpha, scanGroups, scanGroup, scanGroupIdx,
      maxValLoop, getE, List.range', List.range_succ, min_def, baseCtx]
  exact ⟨⟨hmem, hwc, hpos, hg⟩,
    c7_chooseFinalLargeAlpha_spec baseCtx [(3, 2), (7, 1)] [0, 1, 2] 2 1 hmem hwc hpos hg⟩

/-- Claim C3: the tie-break of `chooseFinalLargeAlpha` is by smallest fixed
permutation index among the maximal-magnitude candidates of the winning
bucket, and the chosen column is invariant under reordering the candidates
within the buckets: a second run on an array whose admitted block and group
slices are permutations of the first returns the same breakGroup and a
breakIndex carrying the same column. -/
theorem c3_chooseFinalLargeAlpha_tiebreak_det (ctx : DualRowCtx)
    (dataA dataB : List (ℤ × ℚ)) (groups : List ℕ) (wc : ℕ) (g : ℕ)
    (hmem : ∀ x ∈ groups, x ≤ wc)
    (hwcA : wc ≤ dataA.length) (hwcB : wc ≤ dataB.length)
    (hposA : ∀ e ∈ dataA.take wc, 0 < e.2)
    (hinj : Function.Injective ctx.perm)
    (htake : List.Perm (dataB.take wc) (dataA.take wc))
    (hsegs : ∀ g2, List.Perm
        (segOf dataB (groups.getD g2 0) (groups.getD (g2 + 1) 0))
        (segOf dataA (groups.getD g2 0) (groups.getD (g2 + 1) 0)))
    (hgA : (chooseFinalLargeAlpha ctx dataA groups wc).2 = (g : ℤ)) :
    ∃ kA : ℕ, (chooseFinalLargeAlpha ctx dataA groups wc).1 = (kA : ℤ)
      ∧ (∀ e ∈ segOf dataA (groups.getD g 0) (groups.getD (g + 1) 0),
          e.2 ≤ (dataA.getD kA (0, 0)).2)
      ∧ (∀ e ∈ segOf dataA (groups.getD g 0) (groups.getD (g + 1) 0),
          e.2 = (dataA.getD kA (0, 0)).2 →
            ctx.perm ((dataA.getD kA (0, 0)).1) ≤ ctx.perm e.1)
      ∧ (chooseFinalLargeAlpha ctx dataB groups wc).2 = (g : ℤ)
      ∧ ∃ kB : ℕ, (chooseFinalLargeAlpha ctx dataB groups wc).1 = (kB : ℤ)
          ∧ (dataB.getD kB (0, 0)).1 = (dataA.getD kA (0, 0)).1 := by
  have hposB : ∀ e ∈ dataB.take wc, 0 < e.2 := by
    intro e he
    exact hposA e (htake.mem_iff.mp he)
  have hfceq : maxValLoop dataB wc = maxValLoop dataA wc := by
    rw [maxValLoop_eq_take dataA wc hwcA, maxValLoop_eq_take dataB wc hwcB]
    exact (htake.map Prod.snd).foldl_eq'
      (fun x _ y _ z => by rw [max_assoc, max_comm x y, max_assoc]) 0
  have hfc : 0 ≤ min (1 / 10 * maxValLoop dataA wc) 1 := by
    have := maxValLoop_nonneg dataA wc
    exact le_min (by linarith) (by norm_num)
  have hleA : ∀ g2, groups.getD g2 0 ≤ dataA.length :=
    fun g2 => le_trans (getD_le_of_mem groups wc hmem g2) hwcA
  have hleB : ∀ g2, groups.getD g2 0 ≤ dataB.length :=
    fun g2 => le_trans (getD_le_of_mem groups wc hmem g2) hwcB
  have hposgA : ∀ g2, ∀ e ∈ segOf dataA (groups.getD g2 0) (groups.getD (g2 + 1) 0),
      0 < e.2 := fun g2 e he => hposA e (seg_subset_take dataA _ _ wc
        (getD_le_of_mem groups wc hmem (g2 + 1)) hwcA e he)
  have hposgB : ∀ g2, ∀ e ∈ segOf dataB (groups.getD g2 0) (groups.getD (g2 + 1) 0),
      0 < e.2 := fun g2 e he => hposB e (seg_subset_take dataB _ _ wc
        (getD_le_of_mem groups wc hmem (g2 + 1)) hwcB e he)
  have hcfA : chooseFinalLargeAlpha ctx dataA groups wc =
      scanGroups dataA groups ctx.perm (min (1 / 10 * maxValLoop dataA wc) 1)
        (groups.length - 1) := rfl
  have hcfB : chooseFinalLargeAlpha ctx dataB groups wc =
      scanGroups dataB groups ctx.perm (min (1 / 10 * maxValLoop dataA wc) 1)
        (groups.length - 1) := by
    show scanGroups dataB groups ctx.perm (min (1 / 10 * maxValLoop dataB wc) 1)
        (groups.length - 1) = _
    rw [hfceq]
  rcases scanGroups_spec dataA groups ctx.perm _ hfc hleA hposgA (groups.length - 1) with
    ⟨hresA, _⟩ | ⟨gA, hgAlen, hjA2, hbetweenA, kA, hkA1, hkA2, hjA1, hkmemA, hqA, hubA, htieA⟩
  · exfalso
    rw [hcfA, hresA] at hgA
    have hgz : (-1 : ℤ) = (g : ℤ) := hgA
    omega
  · rw [hcfA, hjA2] at hgA
    have hgg : g = gA := by exact_mod_cast hgA.symm
    subst hgg
    rcases scanGroups_spec dataB groups ctx.perm _ hfc hleB hposgB (groups.length - 1) with
      ⟨hresB, hallB⟩ | ⟨gB, hgBlen, hjB2, hbetweenB, kB, hkB1, hkB2, hjB1, hkmemB, hqB, hubB, htieB⟩
    · exfalso
      have hmemB : dataA.getD kA (0, 0) ∈
          segOf dataB (groups.getD g 0) (groups.getD (g + 1) 0) :=
        (hsegs g).mem_iff.mpr hkmemA
      exact absurd (hallB g hgAlen _ hmemB) (not_le.mpr hqA)
    · have hgBg : gB = g := by
        by_cases hlt : gB < g
        · exfalso
          have hmemB : dataA.getD kA (0, 0) ∈
              segOf dataB (groups.getD g 0) (groups.getD (g + 1) 0) :=
            (hsegs g).mem_iff.mpr hkmemA
          exact absurd (hbetweenB g hlt hgAlen _ hmemB) (not_le.mpr hqA)
        · by_cases hgt : g < gB
          · exfalso
            have hmemA : dataB.getD kB (0, 0) ∈
                segOf dataA (groups.getD gB 0) (groups.getD (gB + 1) 0) :=
              (hsegs gB).mem_iff.mp hkmemB
            exact absurd (hbetweenA gB hgt hgBlen _ hmemA) (not_le.mpr hqB)
          · omega
      subst hgBg
      have hmemBA : dataB.getD kB (0, 0) ∈
          segOf dataA (groups.getD gB 0) (groups.getD (gB + 1) 0) :=
        (hsegs gB).mem_iff.mp hkmemB
      have hmemAB : dataA.getD kA (0, 0) ∈
          segOf dataB (groups.getD gB 0) (groups.getD (gB + 1) 0) :=
        (hsegs gB).mem_iff.mpr hkmemA
      have hvBA : (dataB.getD kB (0, 0)).2 ≤ valAt dataA kA := hubA _ hmemBA
      have hvAB : (dataA.getD kA (0, 0)).2 ≤ valAt dataB kB := hubB _ hmemAB
      have hveq : valAt dataB kB = valAt dataA kA := le_antisymm hvBA hvAB
      have hpAB : ctx.perm (colAt dataA kA) ≤ ctx.perm ((dataB.getD kB (0, 0)).1) :=
        htieA _ hmemBA hveq
      have hpBA : ctx.perm (colAt dataB kB) ≤ ctx.perm ((dataA.getD kA (0, 0)).1) :=
        htieB _ hmemAB hveq.symm
      have hcoleq : (dataB.getD kB (0, 0)).1 = (dataA.getD kA (0, 0)).1 :=
        hinj (le_antisymm hpBA hpAB)
      exact ⟨kA, by rw [hcfA]; exact hjA1, hubA, htieA, by rw [hcfB, hjB2], kB,
        by rw [hcfB]; exact hjB1, hcoleq⟩

/-- Witness for C3: candidate arrays [(3,2),(7,2)] and its reordering
[(7,2),(3,2)], a single bucket holding both, a genuine magnitude tie, and an
injective permutation ranking column 3 before column 7: both runs select
column 3. -/
theorem c3_chooseFinalLargeAlpha_tiebreak_det_witness :
    ((∀ x ∈ [0, 2], x ≤ 2)
      ∧ 2 ≤ ([(3, 2), (7, 2)] : List (ℤ × ℚ)).length
      ∧ 2 ≤ ([(7, 2), (3, 2)] : List (ℤ × ℚ)).length
      ∧ (∀ e ∈ ([(3, 2), (7, 2)] : List (ℤ × ℚ)).take 2, 0 < e.2)
      ∧ Function.Injective ctxC3w.perm
      ∧ List.Perm (([(7, 2), (3, 2)] : List (ℤ × ℚ)).take 2)
          (([(3, 2), (7, 2)] : List (ℤ × ℚ)).take 2)
      ∧ (∀ g2, List.Perm
          (segOf [(7, 2), (3, 2)] ([0, 2].getD g2 0) ([0, 2].getD (g2 + 1) 0))
          (segOf [(3, 2), (7, 2)] ([0, 2].getD g2 0) ([0, 2].getD (g2 + 1) 0)))
      ∧ (chooseFinalLargeAlpha ctxC3w [(3, 2), (7, 2)] [0, 2] 2).2 = ((0 : ℕ) : ℤ))
    ∧ (∃ kA : ℕ, (chooseFinalLargeAlpha ctxC3w [(3, 2), (7, 2)] [0, 2] 2).1 = (kA : ℤ)
        ∧ (∀ e ∈ segOf [(3, 2), (7, 2)] ([0, 2].getD 0 0) ([0, 2].getD 1 0),
            e.2 ≤ (([(3, 2), (7, 2)] : List (ℤ × ℚ)).getD kA (0, 0)).2)
        ∧ (∀ e ∈ segOf [(3, 2), (7, 2)] ([0, 2].getD 0 0) ([0, 2].getD 1 0),
            e.2 = (([(3, 2), (7, 2)] : List (ℤ × ℚ)).getD kA (0, 0)).2 →
              ctxC3w.perm ((([(3, 2), (7, 2)] : List (ℤ × ℚ)).getD kA (0, 0)).1) ≤
                ctxC3w.perm e.1)
        ∧ (chooseFinalLargeAlpha ctxC3w [(7, 2), (3, 2)] [0, 2] 2).2 = ((0 : ℕ) : ℤ)
        ∧ ∃ kB : ℕ, (chooseFinalLargeAlpha ctxC3w [(7, 2), (3, 2)] [0, 2] 2).1 = (kB : ℤ)
            ∧ (([(7, 2), (3, 2)] : List (ℤ × ℚ)).getD kB (0, 0)).1 =
                (([(3, 2), (7, 2)] : List (ℤ × ℚ)).getD kA (0, 0)).1) := by
  have hmem : ∀ x ∈ [0, 2], x ≤ 2 := by decide
  have hwcA : 2 ≤ ([(3, 2), (7, 2)] : List (ℤ × ℚ)).length := by decide
  have hwcB : 2 ≤ ([(7, 2), (3, 2)] : List (ℤ × ℚ)).length := by decide
  have hposA : ∀ e ∈ ([(3, 2), (7, 2)] : List (ℤ × ℚ)).take 2, 0 < e.2 := by decide
  have hinj : Function.Injective ctxC3w.perm := by
    intro a b h
    simp only [ctxC3w, baseCtx] at h
    split_ifs at h <;> omega
  have htake : List.Perm (([(7, 2), (3, 2)] : List (ℤ × ℚ)).take 2)
      (([(3, 2), (7, 2)] : List (ℤ × ℚ)).take 2) := by
    rw [show (([(7, 2), (3, 2)] : List (ℤ × ℚ)).take 2) = [(7, 2), (3, 2)] from rfl,
      show (([(3, 2), (7, 2)] : List (ℤ × ℚ)).take 2) = [(3, 2), (7, 2)] from rfl]
    exact List.Perm.swap _ _ _
  have hsegs : ∀ g2, List.Perm
      (segOf [(7, 2), (3, 2)] ([0, 2].getD g2 0) ([0, 2].getD (g2 + 1) 0))
      (segOf [(3, 2), (7, 2)] ([0, 2].getD g2 0) ([0, 2].getD (g2 + 1) 0)) := by
    intro g2
    match g2 with
    | 0 =>
      rw [show segOf [(7, 2), (3, 2)] ([0, 2].getD 0 0) ([0, 2].getD 1 0) =
          ([(7, 2), (3, 2)] : List (ℤ × ℚ)) from rfl,
        show segOf [(3, 2), (7, 2)] ([0, 2].getD 0 0) ([0, 2].getD 1 0) =
          ([(3, 2), (7, 2)] : List (ℤ × ℚ)) from rfl]
      exact List.Perm.swap _ _ _
    | n + 1 =>
      have hB : segOf [(7, 2), (3, 2)] ([0, 2].getD (n + 1) 0) ([0, 2].getD (n + 2) 0) =
          ([] : List (ℤ × ℚ)) := by
        rw [List.getD_eq_default [0, 2] 0 (show [0, 2].length ≤ n + 2 by simp)]
        unfold segOf
        simp
      have hA : segOf [(3, 2), (7, 2)] ([0, 2].getD (n + 1) 0) ([0, 2].getD (n + 2) 0) =
          ([] : List (ℤ × ℚ)) := by
        rw [List.getD_eq_default [0, 2] 0 (show [0, 2].length ≤ n + 2 by simp)]
        unfold segOf
        simp
      rw [hA, hB]
  have hgA : (chooseFinalLargeAlpha ctxC3w [(3, 2), (7, 2)] [0, 2] 2).2 = ((0 : ℕ) : ℤ) := by
    norm_num [chooseFinalLargeAlpha, scanGroups, scanGroup, scanGroupIdx,
      maxValLoop, getE, List.range', List.range_succ, min_def, ctxC3w, baseCtx]
  exact ⟨⟨hmem, hwcA, hwcB, hposA, hinj, htake, hsegs, hgA⟩,
    c3_chooseFinalLargeAlpha_tiebreak_det ctxC3w [(3, 2), (7, 2)] [(7, 2), (3, 2)]
      [0, 2] 2 0 hmem hwcA hwcB hposA hinj htake hsegs hgA⟩

/-- Claim C8: whenever `chooseFinal` computes a zero step length — the
chosen pivot's dual is already feasible in its movement direction,
`workDual * workMove` not positive — the produced bound-flip list is empty,
and the outcome is the valid result (`ok`, C++ `return false`), not the
engine-failure signal. -/
theorem c8_zero_step_empty_flips (ctx : DualRowCtx) (cfFuel qFuel : ℕ)
    (workData : List (ℤ × ℚ)) (workTheta : Option ℚ) (res : CFRes)
    (h1 : chooseFinal ctx cfFuel qFuel workData workTheta = some (CFOut.ok res))
    (h2 : ctx.workDual res.workPivot * ctx.workMove res.workPivot ≤ 0) :
    res.workTheta = 0 ∧ res.flips = [] := by
  unfold chooseFinal at h1
  dsimp only at h1
  split at h1
  · exact absurd h1 (by simp)
  · split at h1
    · exact absurd h1 (by simp)
    · exact absurd h1 (by simp)
    · split at h1
      · exact absurd h1 (by simp)
      · rw [Option.some.injEq, CFOut.ok.injEq] at h1
        subst h1
        rw [if_neg (not_lt.mpr h2)] at h2 ⊢
        simp

/-- Witness for C8: a one-candidate row whose dual is already feasible
(`workDual * workMove = -1`); the ratio test returns the valid outcome with
step 0 and no flips. -/
theorem c8_zero_step_empty_flips_witness :
    (chooseFinal ctxC8w 1 1 [(7, 1)] (some 0) =
        some (CFOut.ok { workPivot := 7, workAlpha := 1, workTheta := 0, flips := [] })
      ∧ ctxC8w.workDual 7 * ctxC8w.workMove 7 ≤ 0)
    ∧ ((CFRes.mk 7 1 0 []).workTheta = 0 ∧ (CFRes.mk 7 1 0 []).flips = []) := by
  have hrun : chooseFinal ctxC8w 1 1 [(7, 1)] (some 0) =
      some (CFOut.ok { workPivot := 7, workAlpha := 1, workTheta := 0, flips := [] }) := by
    norm_num [chooseFinal, coarseLoop, coarsePassAux, infMulGe,
      chooseFinalWorkGroupQuad, quadLoop, quadStep, quadPassAux, quadIzRemain,
      chooseFinalLargeAlpha, scanGroups, scanGroup, scanGroupIdx, maxValLoop,
      getE, sortPairs, sourceOut, rotl, List.range', List.range_succ, min_def,
      ctxC8w, baseCtx]
  have hfeas : ctxC8w.workDual 7 * ctxC8w.workMove 7 ≤ 0 := by
    norm_num [ctxC8w, baseCtx]
  exact ⟨⟨hrun, hfeas⟩,
    c8_zero_step_empty_flips ctxC8w 1 1 [(7, 1)] (some 0) _ hrun hfeas⟩

/-- Claim C1 counterexample: with `workDelta = -1` (so `sourceOut = -1`) and
the single candidate column 7 with packed value -1, the filter passes
exactly that column (magnitude `alpha = 1`), and the pipeline computes
`workTheta = -1/2`, whereas the claimed step — the column's
dual-feasibility slack over its signed scaled pivot magnitude,
`(workDual * move) / alpha` — is `1/2`. -/
theorem c1_counterexample :
    ratioTest ctxC1ce 1 1 [(7, -1)] =
      some (CFOut.ok
        { workPivot := 7, workAlpha := -1, workTheta := -(1 / 2), flips := [] })
    ∧ (choosePossible ctxC1ce [(7, -1)]).1 = [(7, 1)]
    ∧ cpAlpha ctxC1ce (7, -1) = 1
    ∧ (ctxC1ce.workDual 7 * ctxC1ce.workMove 7) / cpAlpha ctxC1ce (7, -1) = 1 / 2
    ∧ (-(1 / 2) : ℚ) ≠ 1 / 2 := by
  refine ⟨?_, ?_, ?_, ?_, by norm_num⟩
  · norm_num [ratioTest, choosePossible, cpStep, cpAlpha, pivotTolTa, sourceOut,
      chooseFinal, coarseLoop, coarsePassAux, infMulGe, chooseFinalWorkGroupQuad,
      quadLoop, quadStep, quadPassAux, quadIzRemain, chooseFinalLargeAlpha,
      scanGroups, scanGroup, scanGroupIdx, maxValLoop, getE, sortPairs, rotl,
      List.range', List.range_succ, min_def, ctxC1ce, baseCtx]
  · norm_num [choosePossible, cpStep, cpAlpha, pivotTolTa, sourceOut, ctxC1ce, baseCtx]
  · norm_num [cpAlpha, sourceOut, ctxC1ce, baseCtx]
  · norm_num [cpAlpha, sourceOut, ctxC1ce, baseCtx]

/-- Every candidate produced by the filter has magnitude above the
tolerance. -/
lemma cpIncluded_pos (ctx : DualRowCtx) (pack : List (ℤ × ℚ)) :
    ∀ p ∈ cpIncluded ctx pack, pivotTolTa ctx.updateCount < p.2 := by
  intro p hp
  obtain ⟨e, _, heq⟩ := List.mem_filterMap.mp hp
  by_cases hc : pivotTolTa ctx.updateCount < cpAlpha ctx e
  · rw [if_pos hc] at heq
    injection heq with h
    subst h
    exact hc
  · rw [if_neg hc] at heq
    cases heq

/-- Unfolding one iteration of the quad loop at fuel 1. -/
lemma quadLoop_one (ctx : DualRowCtx) (td : ℚ) (fc : ℕ) (st : QuadSt) :
    quadLoop ctx td fc 1 st =
      match quadStep ctx td fc st with
      | Sum.inl r => some r
      | Sum.inr st2 => quadLoop ctx td fc 0 st2 := rfl

/-- Unfolding one iteration of the coarse loop at fuel 1. -/
lemma coarseLoop_one (ctx : DualRowCtx) (totalDelta : ℚ) (fullCount : ℕ)
    (adm pend : List (ℤ × ℚ)) (tc : ℚ) (selT : Option ℚ) :
    coarseLoop ctx totalDelta fullCount 1 adm pend tc selT =
      (let r := coarsePassAux ctx selT pend adm [] tc
       if totalDelta ≤ r.2.2 ∨ r.1.length = fullCount then some (r.1, r.2.1)
       else coarseLoop ctx totalDelta fullCount 0 r.1 r.2.1 r.2.2
         (selT.map (· * 10))) := rfl

/-- Claim C1 (amended): on a packed row in which exactly one column passes
the candidate filter, with a nonnegative breakpoint ratio below 1e18 and a
nonnegative dual tolerance, the ratio test (`choosePossible` then
`chooseFinal`) selects that column as `workPivot`, with no flips, and with
`workTheta` equal to `workDual[workPivot] / workAlpha` when the pivot's
dual is infeasible in its movement direction (`workDual * workMove > 0`)
and zero otherwise, where `workAlpha = alpha * sourceOut * move` equals the
original packed value. -/
theorem c1_single_candidate_amended (ctx : DualRowCtx) (pack : List (ℤ × ℚ))
    (c : ℤ) (alpha theta0 : ℚ)
    (hcp : choosePossible ctx pack = ([(c, alpha)], some theta0))
    (hTd : 0 ≤ ctx.Td) (hth0 : 0 ≤ theta0) (hth18 : theta0 < 10 ^ 18) :
    ratioTest ctx 1 1 pack =
      some (CFOut.ok
        { workPivot := c
          workAlpha := alpha * sourceOut ctx.workDelta * ctx.workMove c
          workTheta :=
            if 0 < ctx.workDual c * ctx.workMove c then
              ctx.workDual c / (alpha * sourceOut ctx.workDelta * ctx.workMove c)
            else 0
          flips := [] }) := by
  have hfold := choosePossible_fold ctx pack [] none
  have hinc1 : (choosePossible ctx pack).1 = cpIncluded ctx pack := by
    unfold choosePossible
    rw [hfold]
    simp
  have hinc : cpIncluded ctx pack = [(c, alpha)] := by
    rw [hcp] at hinc1
    exact hinc1.symm
  have hTa : pivotTolTa ctx.updateCount < alpha :=
    cpIncluded_pos ctx pack (c, alpha) (by rw [hinc]; simp)
  have halpha : 0 < alpha := lt_trans (pivotTolTa_pos _) hTa
  have htheta0 : theta0 = (ctx.workDual c * ctx.workMove c + ctx.Td) / alpha := by
    have h2 : (choosePossible ctx pack).2 =
        listMinQ none ((cpIncluded ctx pack).map (breakRatio ctx)) := by
      unfold choosePossible
      rw [hfold]
    rw [hcp, hinc] at h2
    simp only [List.map_cons, List.map_nil, listMinQ, minStepQ] at h2
    simpa [breakRatio] using h2
  have htt : theta0 * alpha = ctx.workMove c * ctx.workDual c + ctx.Td := by
    rw [htheta0]
    field_simp
    ring
  have hqadm : ctx.workMove c * ctx.workDual c ≤ theta0 * alpha := by
    rw [htt]
    linarith
  have hcadm : infMulGe (some (10 * theta0 + 1 / 10 ^ 7)) alpha
      (ctx.workMove c * ctx.workDual c) := by
    show ctx.workMove c * ctx.workDual c ≤ alpha * (10 * theta0 + 1 / 10 ^ 7)
    have hexp : alpha * (10 * theta0 + 1 / 10 ^ 7) =
        10 * (theta0 * alpha) + 1 / 10 ^ 7 * alpha := by ring
    rw [hexp, htt]
    have h1 : 0 ≤ theta0 * alpha := mul_nonneg hth0 (le_of_lt halpha)
    have h2 : 0 < 1 / 10 ^ 7 * alpha :=
      mul_pos (by norm_num) halpha
    linarith [htt]
  have hcoarse : coarseLoop ctx |ctx.workDelta| ([(c, alpha)] : List (ℤ × ℚ)).length 1 []
      [(c, alpha)] 0 (some (10 * theta0 + 1 / 10 ^ 7)) = some ([(c, alpha)], []) := by
    rw [coarseLoop_one]
    simp only [coarsePassAux, rotl]
    rw [if_pos hcadm]
    simp only [coarsePassAux]
    simp
  have hstep : quadStep ctx |ctx.workDelta| ([(c, alpha)] : List (ℤ × ℚ)).length
      { admitted := [], pending := [(c, alpha)], totalChange := 1 / 10 ^ 12,
        selectTheta := some theta0, groups := [0], prevW := 0,
        prevRemain := quadIzRemain, prevSelect := some theta0 } =
      Sum.inl (true,
        { admitted := [(c, alpha)], pending := [],
          totalChange := 1 / 10 ^ 12 + alpha * ctx.workRange c,
          selectTheta := some quadIzRemain, groups := [0, 1], prevW := 1,
          prevRemain := quadIzRemain, prevSelect := some quadIzRemain }) := by
    unfold quadStep
    dsimp only
    rw [if_pos hth18]
    simp only [quadPassAux, rotl]
    rw [if_pos hqadm]
    simp only [quadPassAux]
    rw [if_neg (by simp)]
    simp
  have hquad : chooseFinalWorkGroupQuad ctx (some theta0) [(c, alpha)] 1 =
      some (true,
        { admitted := [(c, alpha)], pending := [],
          totalChange := 1 / 10 ^ 12 + alpha * ctx.workRange c,
          selectTheta := some quadIzRemain, groups := [0, 1], prevW := 1,
          prevRemain := quadIzRemain, prevSelect := some quadIzRemain }) := by
    unfold chooseFinalWorkGroupQuad
    rw [quadLoop_one, hstep]
  have hsg : scanGroup [(c, alpha)] ctx.perm 0 1 = (alpha, 0) := by
    unfold scanGroup
    rw [show List.range' 0 (1 - 0) = [0] from rfl]
    simp only [scanGroupIdx]
    rw [if_pos (show ((0 : ℚ), (-1 : ℤ)).1 < (([(c, alpha)] : List (ℤ × ℚ)).getD 0 (0, 0)).2
      from halpha)]
    rfl
  have hmax : maxValLoop [(c, alpha)] 1 = alpha := by
    unfold maxValLoop
    rw [show List.range 1 = [0] from rfl]
    simp only [List.foldl_cons, List.foldl_nil]
    exact max_eq_right (le_of_lt halpha)
  have hfclt : min (1 / 10 * alpha) 1 < alpha :=
    lt_of_le_of_lt (min_le_left _ _) (by linarith)
  have hla : chooseFinalLargeAlpha ctx [(c, alpha)] [0, 1] 1 = (0, 0) := by
    unfold chooseFinalLargeAlpha
    rw [hmax]
    rw [show ([0, 1] : List ℕ).length - 1 = 1 from rfl]
    rw [show (1 : ℕ) = 0 + 1 from rfl]
    simp only [scanGroups]
    rw [show ([0, 1] : List ℕ).getD 0 0 = 0 from rfl,
      show ([0, 1] : List ℕ).getD (0 + 1) 0 = 1 from rfl, hsg]
    rw [if_pos (show min (1 / 10 * alpha) 1 < (getE [(c, alpha)] ((alpha, (0 : ℤ))).2).2
      from hfclt)]
    rfl
  show chooseFinal ctx 1 1 (choosePossible ctx pack).1 (choosePossible ctx pack).2 = _
  rw [hcp]
  unfold chooseFinal
  dsimp only
  rw [show Option.map (fun t => 10 * t + 1 / 10 ^ 7) (some theta0) =
    some (10 * theta0 + 1 / 10 ^ 7) from rfl]
  rw [hcoarse]
  dsimp only
  rw [hquad]
  simp only [List.append_nil, List.nil_append, List.cons_append, List.length_cons,
    List.length_nil, Nat.zero_add]
  rw [hla]
  norm_num [getE, sortPairs]

/-- Witness for C1 (amended): the packed row [(3, 2)] with dual 1/2,
movement 1, tolerance 1e-7 and required step 1 selects column 3 with
`workTheta = (1/2)/2`. -/
theorem c1_single_candidate_amended_witness :
    (choosePossible ctxC1w [(3, 2)] = ([(3, 2)], some ((1 / 2 + 1 / 10 ^ 7) / 2))
      ∧ (0 : ℚ) ≤ ctxC1w.Td ∧ (0 : ℚ) ≤ (1 / 2 + 1 / 10 ^ 7) / 2
      ∧ ((1 / 2 + 1 / 10 ^ 7) / 2 : ℚ) < 10 ^ 18)
    ∧ ratioTest ctxC1w 1 1 [(3, 2)] =
        some (CFOut.ok
          { workPivot := 3
            workAlpha := 2 * sourceOut ctxC1w.workDelta * ctxC1w.workMove 3
            workTheta :=
              if 0 < ctxC1w.workDual 3 * ctxC1w.workMove 3 then
                ctxC1w.workDual 3 / (2 * sourceOut ctxC1w.workDelta * ctxC1w.workMove 3)
              else 0
            flips := [] }) := by
  have hcp : choosePossible ctxC1w [(3, 2)] =
      ([(3, 2)], some ((1 / 2 + 1 / 10 ^ 7) / 2)) := by
    norm_num [choosePossible, cpStep, cpAlpha, pivotTolTa, sourceOut, ctxC1w, baseCtx]
  have h1 : (0 : ℚ) ≤ ctxC1w.Td := by norm_num [ctxC1w, baseCtx]
  have h2 : (0 : ℚ) ≤ (1 / 2 + 1 / 10 ^ 7) / 2 := by norm_num
  have h3 : ((1 / 2 + 1 / 10 ^ 7) / 2 : ℚ) < 10 ^ 18 := by norm_num
  exact ⟨⟨hcp, h1, h2, h3⟩,
    c1_single_candidate_amended ctxC1w [(3, 2)] 3 2 ((1 / 2 + 1 / 10 ^ 7) / 2) hcp h1 h2 h3⟩

/-- Claim C10 counterexample: with a single packed entry whose column is
basic (`nonbasicFlag = 0`), the code computes 0, while the claimed sum over
every entry of the packed row is 4. -/
theorem c10_computeDevexWeight_counterexample :
    computeDevexWeight ctxDevex1 [(5, 2)] = 0
    ∧ devexWeightAllEntries ctxDevex1 [(5, 2)] = 4
    ∧ (0 : ℚ) ≠ 4 := by
  refine ⟨?_, ?_, by norm_num⟩
  · rfl
  · unfold devexWeightAllEntries ctxDevex1 baseCtx
    norm_num

/-- Claim C10 (amended): `computeDevexWeight` returns the sum of squares of
(devex reference weight × packed value) over the entries of the packed row
whose column is nonbasic (`nonbasicFlag != 0`); entries on basic columns are
skipped.  The computation has no effect beyond the returned scalar. -/
theorem c10_computeDevexWeight_amended (ctx : DualRowCtx) (pack : List (ℤ × ℚ)) :
    computeDevexWeight ctx pack =
      ((pack.filter (fun e => ctx.nonbasicFlag e.1 ≠ 0)).map
        (fun e => ctx.devexIndex e.1 * e.2 * (ctx.devexIndex e.1 * e.2))).sum := by
  unfold computeDevexWeight
  suffices hgen : ∀ (l : List (ℤ × ℚ)) (acc : ℚ),
      l.foldl (fun acc e =>
        if ctx.nonbasicFlag e.1 = 0 then acc
        else
          let pv := ctx.devexIndex e.1 * e.2
          if pv ≠ 0 then acc + pv * pv else acc) acc =
      acc + ((l.filter (fun e => ctx.nonbasicFlag e.1 ≠ 0)).map
        (fun e => ctx.devexIndex e.1 * e.2 * (ctx.devexIndex e.1 * e.2))).sum by
    rw [hgen]
    ring
  intro l
  induction l with
  | nil => intro acc; simp
  | cons e rest ih =>
    intro acc
    rw [List.foldl_cons]
    by_cases hb : ctx.nonbasicFlag e.1 = 0
    · rw [if_pos hb, List.filter_cons_of_neg (by simp [hb]), ih]
    · rw [if_neg hb, List.filter_cons_of_pos (by simp [hb])]
      by_cases hpv : ctx.devexIndex e.1 * e.2 ≠ 0
      · rw [if_pos hpv, ih]
        simp only [List.map_cons, List.sum_cons]
        ring
      · rw [if_neg hpv, ih]
        push_neg at hpv
        simp only [List.map_cons, List.sum_cons, hpv]
        ring
